import Mathlib

/-
Shallow embedding of the MCTS engine in src/src/tree_search.rs.

Conventions of the embedding:
* The opaque state type of the engine (trait State, declared in the
  repository's types.rs, which is not among the staged files; its contract
  is the spec's: value semantics, equality, hashability) is a type
  parameter T with DecidableEq.
* Mutation, Evaluator and RollOut are the collaborator interfaces from
  types.rs (not staged); they are modelled from the spec, section 6:
  a Mutation is a pure function T to T, an Evaluator a pure function
  T to Int, a RollOut a function of (state, mutation set, evaluator,
  rollout depth, rollout epsilon, visited set).  A possibly randomized
  rollout, and the thread rng used by random selection, are modelled by
  an explicit counter k threaded through run: the rollout family takes
  the counter as an extra first argument and rng is a function from the
  counter to a draw.  Any concrete execution of the Rust program
  corresponds to one choice of these functions.
* f64 arithmetic on running averages is modelled exactly over the
  rationals; the only transcendental computation, the UCB score, is
  modelled over the reals with Real.log and Real.sqrt.  std::f64::MAX is
  the real number 2^1024 - 2^971 (its exact value).  The cast
  `expr as i32` truncates toward zero and saturates at the i32 bounds,
  which f64toI32 reproduces.  u32 counters are modelled as Nat (no
  search can overflow them, a run increments each by at most one).
* The HashSet of previously seen states is a Finset.
* The Rust nodes borrow one shared mutation list; the embedding passes
  that list as an outer parameter instead of storing a reference in
  every node, which is the sharing discipline the spec's section 9
  prescribes.  TreeSearchNode.new keeps the (unused) argument so that
  its signature matches the source.
* Mutable updates (self.children = ..., previous_states.insert(...))
  become explicit results: expand returns the updated node, the node to
  simulate, the no_non_explored flag and the updated set; run returns
  the updated node, the updated set, the backpropagated value and the
  rng counter.
-/

/-- Modelled from the spec: trait Mutation of types.rs (not staged), a pure
state transition. -/
abbrev Mutation (T : Type) := T → T

/-- Modelled from the spec: trait Evaluator of types.rs (not staged), a pure
total scoring function (evaluate(State) -> integer). -/
abbrev Evaluator (T : Type) := T → ℤ

/-- Modelled from the spec: type RollOut of types.rs (not staged):
rollout(state, mutation_set, evaluator, rollout_depth, rollout_epsilon,
visited_set) -> integer score. -/
abbrev RollOut (T : Type) := T → List (Mutation T) → Evaluator T → ℕ → ℚ → Finset T → ℤ

/-- The struct TreeSearchNode of tree_search.rs: visit counter, running
average, owned state and owned children.  The shared mutation-list
reference is passed to the operations instead of being stored. -/
inductive TreeSearchNode (T : Type) : Type where
  | mk (times_visited : ℕ) (average_evaluation : ℚ) (state : T)
       (children : List (TreeSearchNode T)) : TreeSearchNode T

namespace TreeSearchNode

def times_visited {T : Type} : TreeSearchNode T → ℕ
  | .mk t _ _ _ => t

def average_evaluation {T : Type} : TreeSearchNode T → ℚ
  | .mk _ a _ _ => a

def state {T : Type} : TreeSearchNode T → T
  | .mk _ _ s _ => s

def children {T : Type} : TreeSearchNode T → List (TreeSearchNode T)
  | .mk _ _ _ cs => cs

/-- The assignment self.children = ... in expand. -/
def setChildren {T : Type} : TreeSearchNode T → List (TreeSearchNode T) → TreeSearchNode T
  | .mk t a s _, cs => .mk t a s cs

end TreeSearchNode

/-- Result of TreeSearchNode::expand: the node after the borrow ends (its
children possibly reassigned), the node returned as the target of the
simulation, the no-unexplored-states flag, and the visited set after the
insertions expansion performed. -/
structure ExpandResult (T : Type) where
  node : TreeSearchNode T
  target : TreeSearchNode T
  no_non_explored : Bool
  prev : Finset T

/-- Result of TreeSearchNode::run: the node after the call (statistics
updated, subtree possibly extended), the visited set, the backpropagated
value, and the rng counter. -/
structure RunResult (T : Type) where
  node : TreeSearchNode T
  prev : Finset T
  value : ℤ
  k : ℕ

set_option linter.unusedVariables false in
/-- TreeSearchNode::new: a fresh node with zero statistics and no
children; the state is inserted into the visited set at creation time.
The mutation-list argument is the shared reference the Rust node stores;
the embedding passes it to each operation instead. -/
def TreeSearchNode.new {T : Type} [DecidableEq T] (state : T)
    (mutations : List (Mutation T)) (previous_states : Finset T) :
    TreeSearchNode T × Finset T :=
  (⟨0, 0, state, []⟩, insert state previous_states)

/-- get_children_from_mutations: walk the mutation list in order; a
successor state already in the visited set is discarded, a fresh one is
inserted and becomes a new child node (TreeSearchNode::new inserts it
again, which is idempotent).  Returns the children in mutation order and
the grown visited set. -/
def get_children_from_mutations {T : Type} [DecidableEq T] (state : T)
    (mutations : List (Mutation T)) (previous_states : Finset T) :
    List (TreeSearchNode T) × Finset T :=
  match mutations with
  | [] => ([], previous_states)
  | mutation :: rest =>
    let child_state := mutation state
    if child_state ∈ previous_states then
      get_children_from_mutations state rest previous_states
    else
      let created := TreeSearchNode.new child_state mutations (insert child_state previous_states)
      let restRes := get_children_from_mutations state rest created.2
      (created.1 :: restRes.1, restRes.2)

/-- TreeSearchNode::expand.  A never-visited node returns itself to be
simulated, with no children materialized; otherwise all surviving
children are materialized and the first one is the simulation target;
if none survives the dead-end flag is raised. -/
def expand {T : Type} [DecidableEq T] (n : TreeSearchNode T)
    (mutations : List (Mutation T)) (previous_states : Finset T) : ExpandResult T :=
  if n.times_visited = 0 then ⟨n, n, false, previous_states⟩
  else
    let res := get_children_from_mutations n.state mutations previous_states
    let n2 := n.setChildren res.1
    match res.1 with
    | [] => ⟨n2, n2, true, res.2⟩
    | ch :: _ => ⟨n2, ch, false, res.2⟩

/-- Truncation toward zero of a rational, the rounding of Rust's
`as i32` cast before saturation. -/
def truncQ (q : ℚ) : ℤ := if 0 ≤ q then ⌊q⌋ else ⌈q⌉

/-- The cast `f64 as i32`: truncation toward zero, saturating at the i32
bounds. -/
def f64toI32 (q : ℚ) : ℤ := max (-(2 ^ 31)) (min (2 ^ 31 - 1) (truncQ q))

/-- std::f64::MAX, exactly. -/
noncomputable def f64MAX : ℝ := 2 ^ 1024 - 2 ^ 971

/-- The function ucb of tree_search.rs.  A never-visited child scores
std::f64::MAX; otherwise the classical UCB1 score. -/
noncomputable def ucb (average_evaluation : ℚ) (uct_exploration : ℝ)
    (times_visited : ℕ) (total_times_visited : ℕ) : ℝ :=
  if times_visited = 0 then f64MAX
  else
    (average_evaluation : ℝ) +
      uct_exploration * Real.sqrt (Real.log total_times_visited / times_visited)

/-- Modelled from the spec: the UCB1 score exactly as section 4.2 words
it, with score plus-infinity for a never-visited child.  Used only to
compare the spec's scoring rule against the source's ucb. -/
noncomputable def ucbSpec (average_evaluation : ℚ) (uct_exploration : ℝ)
    (times_visited : ℕ) (total_times_visited : ℕ) : EReal :=
  if times_visited = 0 then ⊤
  else ((average_evaluation +
      uct_exploration * Real.sqrt (Real.log total_times_visited / times_visited) : ℝ) : EReal)

/-- The ucb score of the j-th child of n (0 past the end), as the
selection loop computes it. -/
noncomputable def scAt {T : Type} (n : TreeSearchNode T) (uct_exploration : ℝ) (j : ℕ) : ℝ :=
  match n.children[j]? with
  | some child => ucb child.average_evaluation uct_exploration child.times_visited n.times_visited
  | none => 0

/-- The for-loop of best_ucb_score_index: running best score and best
index, a child replaces the best only with a strictly greater score. -/
noncomputable def ucbLoop {T : Type} (children : List (TreeSearchNode T))
    (uct_exploration : ℝ) (total_times_visited : ℕ)
    (index : ℕ) (best_ucb_score : ℝ) (best_index : ℕ) : ℕ :=
  if h : index < children.length then
    let child := children.get ⟨index, h⟩
    let child_ubc_score :=
      ucb child.average_evaluation uct_exploration child.times_visited total_times_visited
    if best_ucb_score < child_ubc_score then
      ucbLoop children uct_exploration total_times_visited (index + 1) child_ubc_score index
    else
      ucbLoop children uct_exploration total_times_visited (index + 1) best_ucb_score best_index
  else best_index
termination_by children.length - index

/-- TreeSearchNode::best_ucb_score_index.  In random mode the rng draw
is reduced modulo the number of children (the draw of gen_range); in
non-random mode the loop starts from best score 0.0 at index 0. -/
noncomputable def best_ucb_score_index {T : Type} (n : TreeSearchNode T)
    (uct_exploration : ℝ) (random_search : Bool) (draw : ℕ) : ℕ :=
  if random_search then draw % n.children.length
  else ucbLoop n.children uct_exploration n.times_visited 0 0 0

/-- TreeSearchNode::update_average: one more visit, then the incremental
mean update with the new count. -/
def update_average {T : Type} (n : TreeSearchNode T) (value : ℤ) : TreeSearchNode T :=
  .mk (n.times_visited + 1)
    (n.average_evaluation +
      ((value : ℚ) - n.average_evaluation) / ((n.times_visited + 1 : ℕ) : ℚ))
    n.state n.children

section Engine

variable {T : Type} [DecidableEq T]
variable (mutations : List (Mutation T)) (uct_exploration : ℝ)
variable (rollout : ℕ → RollOut T) (tree : Evaluator T)
variable (rollout_epsilon : ℚ) (rollout_depth : ℕ)
variable (move_away_constant : ℚ) (random_search : Bool) (rng : ℕ → ℕ)

/-- TreeSearchNode::simulate: delegate to the rollout collaborator with
this node's state; k indexes the rollout's randomness. -/
def simulate (n : TreeSearchNode T) (previous_states : Finset T) (k : ℕ) : ℤ :=
  rollout k n.state mutations tree rollout_depth rollout_epsilon previous_states

/-- TreeSearchNode::run.  A childless node expands (a first visit defers
expansion and simulates the node itself; a dead end backpropagates the
move-away penalty; otherwise the first new child is simulated); a node
with children selects one by best_ucb_score_index and recurses.  In
every case the node's own statistics are updated with the value before
it is returned.  The out-of-range selection branch is unreachable
(best_ucb_score_index stays below the children count, proved below);
Rust would panic there. -/
noncomputable def run (n : TreeSearchNode T) (previous_states : Finset T) (k : ℕ) :
    RunResult T :=
  match n with
  | .mk t a s cs =>
    if cs.isEmpty then
      let ex := expand (.mk t a s cs) mutations previous_states
      if ex.no_non_explored then
        let value := f64toI32 (ex.node.average_evaluation -
          |ex.node.average_evaluation| * move_away_constant)
        ⟨update_average ex.node value, ex.prev, value, k⟩
      else
        let value := simulate mutations rollout tree rollout_epsilon rollout_depth
          ex.target ex.prev k
        ⟨update_average ex.node value, ex.prev, value, k + 1⟩
    else
      if hlt : best_ucb_score_index (.mk t a s cs) uct_exploration random_search (rng k) <
          cs.length then
        let r := run
          (cs.get ⟨best_ucb_score_index (.mk t a s cs) uct_exploration random_search (rng k), hlt⟩)
          previous_states (k + 1)
        ⟨update_average (.mk t a s
            (cs.set (best_ucb_score_index (.mk t a s cs) uct_exploration random_search (rng k))
              r.node))
          r.value, r.prev, r.value, r.k⟩
      else
        ⟨.mk t a s cs, previous_states, 0, k⟩
termination_by sizeOf n
decreasing_by
  simp_wf
  have h1 := List.sizeOf_lt_of_mem (List.getElem_mem hlt)
  omega

/-- The driver loop of search: the root is created (inserting the start
state), then run is applied loop-count times; the state after a given
number of loops is the node, the visited set and the rng counter. -/
noncomputable def searchState (start_state : T) : ℕ → TreeSearchNode T × Finset T × ℕ
  | 0 =>
    let base := TreeSearchNode.new start_state mutations ∅
    (base.1, base.2, 0)
  | loops + 1 =>
    let st := searchState start_state loops
    let r := run mutations uct_exploration rollout tree rollout_epsilon rollout_depth
      move_away_constant random_search rng st.1 st.2.1 st.2.2
    (r.node, r.prev, r.k)

end Engine

mutual

/-- TreeSearchNode::get_max_state and its for-loop: fold the children,
replacing the best state only when the child subtree's best evaluates
strictly greater. -/
def get_max_state {T : Type} (tree : Evaluator T) : TreeSearchNode T → T
  | .mk _ _ s cs => get_max_loop tree cs s

def get_max_loop {T : Type} (tree : Evaluator T) :
    List (TreeSearchNode T) → T → T
  | [], best_state => best_state
  | child :: rest, best_state =>
    let child_max_state := get_max_state tree child
    get_max_loop tree rest
      (if tree child_max_state > tree best_state then child_max_state else best_state)

end

mutual

/-- TreeSearchNode::get_tree_size and its for-loop: one for this node
plus the sizes of the children. -/
def get_tree_size {T : Type} : TreeSearchNode T → ℕ
  | .mk _ _ _ cs => 1 + tree_size_loop cs

def tree_size_loop {T : Type} : List (TreeSearchNode T) → ℕ
  | [] => 0
  | child :: rest => get_tree_size child + tree_size_loop rest

end

/-- The function search of tree_search.rs, with the same parameter list,
plus the modelled collaborators: the mutation set (the call
T::get_possible_mutations() of line 23) and the rng/randomness counter
family.  Returns the best state found and the tree size. -/
noncomputable def search {T : Type} [DecidableEq T] (start_state : T)
    (rollout : ℕ → RollOut T) (tree : Evaluator T) (loops : ℕ)
    (rollout_depth : ℕ) (rollout_epsilon : ℚ) (uct_exploration : ℝ)
    (move_away_constant : ℚ) (random_search : Bool)
    (mutations : List (Mutation T)) (rng : ℕ → ℕ) : T × ℕ :=
  let fin := searchState mutations uct_exploration rollout tree rollout_epsilon
    rollout_depth move_away_constant random_search rng start_state loops
  (get_max_state tree fin.1, get_tree_size fin.1)

mutual

/-- The list of the states held by every node of the tree, in preorder:
one entry per node. -/
def states {T : Type} : TreeSearchNode T → List T
  | .mk _ _ s cs => s :: statesList cs

def statesList {T : Type} : List (TreeSearchNode T) → List T
  | [] => []
  | c :: rest => states c ++ statesList rest

end

mutual

/-- Every node of the tree (the tree itself included), in preorder. -/
def subtrees {T : Type} : TreeSearchNode T → List (TreeSearchNode T)
  | .mk t a s cs => .mk t a s cs :: subtreesList cs

def subtreesList {T : Type} : List (TreeSearchNode T) → List (TreeSearchNode T)
  | [] => []
  | c :: rest => subtrees c ++ subtreesList rest

end

/-- The visit-count invariant behind the well-definedness of the UCB
logarithm: every node that has children has been visited at least
twice. -/
def visitInv {T : Type} (n : TreeSearchNode T) : Prop :=
  ∀ m ∈ subtrees n, m.children ≠ [] → 2 ≤ m.times_visited

/-- The facts one run call establishes about its result, given a
well-formed input: the subtree states stay pairwise distinct, they all
lie in the returned visited set, every state the subtree gained was
fresh (not in the incoming set), the root's statistics were updated by
exactly one incremental-mean step with the returned value, and the
visit-count invariant is preserved. -/
def RunGood {T : Type} [DecidableEq T] (n : TreeSearchNode T) (prev : Finset T)
    (r : RunResult T) : Prop :=
  (states r.node).Nodup ∧
  (∀ y ∈ states r.node, y ∈ r.prev) ∧
  (∀ y ∈ states r.node, y ∈ states n ∨ y ∉ prev) ∧
  r.node.times_visited = n.times_visited + 1 ∧
  r.node.state = n.state ∧
  r.node.average_evaluation = n.average_evaluation +
    ((r.value : ℚ) - n.average_evaluation) / ((n.times_visited + 1 : ℕ) : ℚ) ∧
  (visitInv n → visitInv r.node)

/-! Basic rewriting lemmas for the embedding. -/

namespace TreeSearchNode

@[simp] theorem times_visited_mk {T : Type} (t : ℕ) (a : ℚ) (s : T)
    (cs : List (TreeSearchNode T)) : (mk t a s cs).times_visited = t := rfl

@[simp] theorem average_evaluation_mk {T : Type} (t : ℕ) (a : ℚ) (s : T)
    (cs : List (TreeSearchNode T)) : (mk t a s cs).average_evaluation = a := rfl

@[simp] theorem state_mk {T : Type} (t : ℕ) (a : ℚ) (s : T)
    (cs : List (TreeSearchNode T)) : (mk t a s cs).state = s := rfl

@[simp] theorem children_mk {T : Type} (t : ℕ) (a : ℚ) (s : T)
    (cs : List (TreeSearchNode T)) : (mk t a s cs).children = cs := rfl

@[simp] theorem setChildren_mk {T : Type} (t : ℕ) (a : ℚ) (s : T)
    (cs cs2 : List (TreeSearchNode T)) : (mk t a s cs).setChildren cs2 = mk t a s cs2 := rfl

theorem eta {T : Type} (n : TreeSearchNode T) :
    n = mk n.times_visited n.average_evaluation n.state n.children := by
  cases n; rfl

end TreeSearchNode

@[simp] theorem update_average_mk {T : Type} (t : ℕ) (a : ℚ) (s : T)
    (cs : List (TreeSearchNode T)) (v : ℤ) :
    update_average (.mk t a s cs) v =
      .mk (t + 1) (a + ((v : ℚ) - a) / ((t + 1 : ℕ) : ℚ)) s cs := rfl

@[simp] theorem states_mk {T : Type} (t : ℕ) (a : ℚ) (s : T)
    (cs : List (TreeSearchNode T)) : states (.mk t a s cs) = s :: statesList cs := by
  rw [states]

@[simp] theorem statesList_nil {T : Type} : statesList ([] : List (TreeSearchNode T)) = [] := by
  rw [statesList]

@[simp] theorem statesList_cons {T : Type} (c : TreeSearchNode T)
    (rest : List (TreeSearchNode T)) :
    statesList (c :: rest) = states c ++ statesList rest := by
  rw [statesList]

theorem statesList_eq_flatten {T : Type} (cs : List (TreeSearchNode T)) :
    statesList cs = (cs.map states).flatten := by
  induction cs with
  | nil => simp
  | cons c rest ih => simp [ih]

@[simp] theorem subtrees_mk {T : Type} (t : ℕ) (a : ℚ) (s : T)
    (cs : List (TreeSearchNode T)) :
    subtrees (.mk t a s cs) = .mk t a s cs :: subtreesList cs := by
  rw [subtrees]

@[simp] theorem subtreesList_nil {T : Type} :
    subtreesList ([] : List (TreeSearchNode T)) = [] := by
  rw [subtreesList]

@[simp] theorem subtreesList_cons {T : Type} (c : TreeSearchNode T)
    (rest : List (TreeSearchNode T)) :
    subtreesList (c :: rest) = subtrees c ++ subtreesList rest := by
  rw [subtreesList]

theorem subtreesList_eq_flatten {T : Type} (cs : List (TreeSearchNode T)) :
    subtreesList cs = (cs.map subtrees).flatten := by
  induction cs with
  | nil => simp
  | cons c rest ih => simp [ih]

theorem self_mem_subtrees {T : Type} (n : TreeSearchNode T) : n ∈ subtrees n := by
  cases n; simp

theorem mem_statesList_iff {T : Type} (cs : List (TreeSearchNode T)) (x : T) :
    x ∈ statesList cs ↔ ∃ c ∈ cs, x ∈ states c := by
  rw [statesList_eq_flatten, List.mem_flatten]
  constructor
  · rintro ⟨l, hl, hx⟩
    rcases List.mem_map.1 hl with ⟨c, hc, rfl⟩
    exact ⟨c, hc, hx⟩
  · rintro ⟨c, hc, hx⟩
    exact ⟨states c, List.mem_map.2 ⟨c, hc, rfl⟩, hx⟩

theorem mem_subtreesList_iff {T : Type} (cs : List (TreeSearchNode T)) (m : TreeSearchNode T) :
    m ∈ subtreesList cs ↔ ∃ c ∈ cs, m ∈ subtrees c := by
  rw [subtreesList_eq_flatten, List.mem_flatten]
  constructor
  · rintro ⟨l, hl, hx⟩
    rcases List.mem_map.1 hl with ⟨c, hc, rfl⟩
    exact ⟨c, hc, hx⟩
  · rintro ⟨c, hc, hx⟩
    exact ⟨subtrees c, List.mem_map.2 ⟨c, hc, rfl⟩, hx⟩

theorem subtrees_childless {T : Type} (t : ℕ) (a : ℚ) (s : T) :
    subtrees (.mk t a s ([] : List (TreeSearchNode T))) = [.mk t a s []] := by
  simp

/-! Facts about get_children_from_mutations, by induction on the
mutation list. -/

theorem gc_nil {T : Type} [DecidableEq T] (s : T) (prev : Finset T) :
    get_children_from_mutations s [] prev = ([], prev) := rfl

theorem gc_cons_mem {T : Type} [DecidableEq T] (s : T) (m : Mutation T)
    (rest : List (Mutation T)) (prev : Finset T) (h : m s ∈ prev) :
    get_children_from_mutations s (m :: rest) prev =
      get_children_from_mutations s rest prev := by
  simp [get_children_from_mutations, h]

theorem gc_cons_not_mem {T : Type} [DecidableEq T] (s : T) (m : Mutation T)
    (rest : List (Mutation T)) (prev : Finset T) (h : m s ∉ prev) :
    get_children_from_mutations s (m :: rest) prev =
      ((.mk 0 0 (m s) []) :: (get_children_from_mutations s rest (insert (m s) prev)).1,
        (get_children_from_mutations s rest (insert (m s) prev)).2) := by
  simp [get_children_from_mutations, TreeSearchNode.new, h, Finset.insert_idem]

theorem gc_prev_mono {T : Type} [DecidableEq T] (s : T) (muts : List (Mutation T)) :
    ∀ prev : Finset T, prev ⊆ (get_children_from_mutations s muts prev).2 := by
  induction muts with
  | nil => intro prev; rw [gc_nil]
  | cons m rest ih =>
    intro prev
    by_cases h : m s ∈ prev
    · rw [gc_cons_mem s m rest prev h]; exact ih prev
    · rw [gc_cons_not_mem s m rest prev h]
      exact (Finset.subset_insert _ _).trans (ih _)

theorem gc_child_props {T : Type} [DecidableEq T] (s : T) (muts : List (Mutation T)) :
    ∀ prev : Finset T, ∀ c ∈ (get_children_from_mutations s muts prev).1,
      c.times_visited = 0 ∧ c.children = [] ∧ c.state ∉ prev ∧
        c.state ∈ (get_children_from_mutations s muts prev).2 := by
  induction muts with
  | nil => intro prev c hc; rw [gc_nil] at hc; simp at hc
  | cons m rest ih =>
    intro prev c hc
    by_cases h : m s ∈ prev
    · rw [gc_cons_mem s m rest prev h] at hc ⊢
      exact ih prev c hc
    · rw [gc_cons_not_mem s m rest prev h] at hc ⊢
      rcases List.mem_cons.1 hc with rfl | hc2
      · exact ⟨rfl, rfl, by simpa using h,
          gc_prev_mono s rest _ (Finset.mem_insert_self _ _)⟩
      · obtain ⟨h1, h2, h3, h4⟩ := ih (insert (m s) prev) c hc2
        exact ⟨h1, h2, fun hmem => h3 (Finset.mem_insert_of_mem hmem), h4⟩

theorem gc_states_nodup {T : Type} [DecidableEq T] (s : T) (muts : List (Mutation T)) :
    ∀ prev : Finset T,
      (((get_children_from_mutations s muts prev).1).map TreeSearchNode.state).Nodup := by
  induction muts with
  | nil => intro prev; rw [gc_nil]; simp
  | cons m rest ih =>
    intro prev
    by_cases h : m s ∈ prev
    · rw [gc_cons_mem s m rest prev h]; exact ih prev
    · rw [gc_cons_not_mem s m rest prev h]
      refine List.nodup_cons.2 ⟨?_, ih _⟩
      intro hmem
      rcases List.mem_map.1 hmem with ⟨c, hc, hcs⟩
      have h3 := (gc_child_props s rest _ c hc).2.2.1
      rw [hcs] at h3
      exact h3 (Finset.mem_insert_self _ _)

theorem gc_empty_iff {T : Type} [DecidableEq T] (s : T) (muts : List (Mutation T)) :
    ∀ prev : Finset T,
      ((get_children_from_mutations s muts prev).1 = [] ↔ ∀ m ∈ muts, m s ∈ prev) := by
  induction muts with
  | nil => intro prev; simp [gc_nil]
  | cons m rest ih =>
    intro prev
    by_cases h : m s ∈ prev
    · rw [gc_cons_mem s m rest prev h]
      simp [h, ih prev]
    · rw [gc_cons_not_mem s m rest prev h]
      simp [h]

theorem gc_empty_prev {T : Type} [DecidableEq T] (s : T) (muts : List (Mutation T)) :
    ∀ prev : Finset T, (get_children_from_mutations s muts prev).1 = [] →
      (get_children_from_mutations s muts prev).2 = prev := by
  induction muts with
  | nil => intro prev _; rw [gc_nil]
  | cons m rest ih =>
    intro prev hempty
    by_cases h : m s ∈ prev
    · rw [gc_cons_mem s m rest prev h] at hempty ⊢
      exact ih prev hempty
    · rw [gc_cons_not_mem s m rest prev h] at hempty
      simp at hempty

theorem gc_states_sublist {T : Type} [DecidableEq T] (s : T) (muts : List (Mutation T)) :
    ∀ prev : Finset T,
      (((get_children_from_mutations s muts prev).1).map TreeSearchNode.state).Sublist
        (muts.map fun m => m s) := by
  induction muts with
  | nil => intro prev; rw [gc_nil]; simp
  | cons m rest ih =>
    intro prev
    by_cases h : m s ∈ prev
    · rw [gc_cons_mem s m rest prev h]
      exact (ih prev).cons (m s)
    · rw [gc_cons_not_mem s m rest prev h]
      simpa using (ih (insert (m s) prev)).cons₂ (m s)

/-! Numeric facts: the saturating truncation and std::f64::MAX. -/

theorem truncQ_lt_of_lt_pos {x a : ℚ} (hx : x < a) (ha : 0 < a) : (truncQ x : ℚ) < a := by
  unfold truncQ
  by_cases h : 0 ≤ x
  · rw [if_pos h]
    exact lt_of_le_of_lt (Int.floor_le x) hx
  · rw [if_neg h]
    push_neg at h
    have h2 : (⌈x⌉ : ℚ) ≤ 0 := by
      have h3 : ⌈x⌉ ≤ (0 : ℤ) := Int.ceil_le.2 (by exact_mod_cast le_of_lt h)
      exact_mod_cast h3
    exact lt_of_le_of_lt h2 ha

theorem truncQ_lt_of_add_one_le {x a : ℚ} (hx : x + 1 ≤ a) (hxneg : x < 0) :
    (truncQ x : ℚ) < a := by
  unfold truncQ
  rw [if_neg (not_le.2 hxneg)]
  calc (⌈x⌉ : ℚ) < x + 1 := Int.ceil_lt_add_one x
  _ ≤ a := hx

theorem f64toI32_lt {x a : ℚ} (htr : (truncQ x : ℚ) < a) (hlo : -(2 ^ 31 : ℚ) < a) :
    (f64toI32 x : ℚ) < a := by
  unfold f64toI32
  push_cast
  rw [max_lt_iff]
  refine ⟨hlo, lt_of_le_of_lt ?_ htr⟩
  exact min_le_right _ _

theorem f64MAX_pos : 0 < f64MAX := by
  unfold f64MAX
  norm_num

@[simp] theorem ucb_unvisited (a : ℚ) (c : ℝ) (N : ℕ) : ucb a c 0 N = f64MAX := by
  simp [ucb]

theorem ucb_visited (a : ℚ) (c : ℝ) {n : ℕ} (h : n ≠ 0) (N : ℕ) :
    ucb a c n N = (a : ℝ) + c * Real.sqrt (Real.log N / n) := by
  simp [ucb, h]

/-! The selection loop: bound and characterization. -/

theorem scAt_eq {T : Type} (n : TreeSearchNode T) (c : ℝ) {j : ℕ} (h : j < n.children.length) :
    scAt n c j = ucb (n.children.get ⟨j, h⟩).average_evaluation c
      (n.children.get ⟨j, h⟩).times_visited n.times_visited := by
  unfold scAt
  rw [List.getElem?_eq_getElem h]
  simp

theorem ucbLoop_lt_length {T : Type} (children : List (TreeSearchNode T)) (c : ℝ) (N : ℕ) :
    ∀ (fuel i : ℕ) (b : ℝ) (bi : ℕ), children.length - i = fuel → bi < children.length →
      ucbLoop children c N i b bi < children.length := by
  intro fuel
  induction fuel with
  | zero =>
    intro i b bi hfuel hbi
    rw [ucbLoop, dif_neg (by omega : ¬ i < children.length)]
    exact hbi
  | succ f ih =>
    intro i b bi hfuel hbi
    have hi : i < children.length := by omega
    rw [ucbLoop, dif_pos hi]
    dsimp only
    by_cases hlt : b < ucb (children.get ⟨i, hi⟩).average_evaluation c
        (children.get ⟨i, hi⟩).times_visited N
    · rw [if_pos hlt]
      exact ih (i + 1) _ i (by omega) hi
    · rw [if_neg hlt]
      exact ih (i + 1) b bi (by omega) hbi

theorem ucbLoop_invariant {T : Type} (n : TreeSearchNode T) (c : ℝ) :
    ∀ (fuel i : ℕ) (b : ℝ) (bi : ℕ),
      n.children.length - i = fuel →
      i ≤ n.children.length →
      ((b = 0 ∧ bi = 0 ∧ ∀ j < i, scAt n c j ≤ 0) ∨
        (0 < b ∧ bi < i ∧ b = scAt n c bi ∧ (∀ j < i, scAt n c j ≤ b) ∧
          (∀ j < bi, scAt n c j < b))) →
      ((ucbLoop n.children c n.times_visited i b bi = 0 ∧
          ∀ j < n.children.length, scAt n c j ≤ 0) ∨
        (0 < scAt n c (ucbLoop n.children c n.times_visited i b bi) ∧
          (∀ j < n.children.length,
            scAt n c j ≤ scAt n c (ucbLoop n.children c n.times_visited i b bi)) ∧
          (∀ j < ucbLoop n.children c n.times_visited i b bi,
            scAt n c j < scAt n c (ucbLoop n.children c n.times_visited i b bi)))) := by
  intro fuel
  induction fuel with
  | zero =>
    intro i b bi hfuel hile hinv
    rw [ucbLoop, dif_neg (by omega : ¬ i < n.children.length)]
    rcases hinv with ⟨hb, hbi, hall⟩ | ⟨hb, hbi, hbeq, hall, hstrict⟩
    · exact Or.inl ⟨hbi, fun j hj => hall j (by omega)⟩
    · refine Or.inr ⟨hbeq ▸ hb, fun j hj => hbeq ▸ hall j (by omega),
        fun j hj => hbeq ▸ hstrict j hj⟩
  | succ f ih =>
    intro i b bi hfuel hile hinv
    have hi : i < n.children.length := by omega
    rw [ucbLoop, dif_pos hi]
    dsimp only
    rw [← scAt_eq n c hi]
    by_cases hlt : b < scAt n c i
    · rw [if_pos hlt]
      refine ih (i + 1) (scAt n c i) i (by omega) (by omega) (Or.inr ?_)
      have hb0 : 0 ≤ b := by
        rcases hinv with ⟨hb, _, _⟩ | ⟨hb, _, _, _, _⟩
        · exact le_of_eq hb.symm
        · exact le_of_lt hb
      have hprev : ∀ j < i, scAt n c j ≤ b := by
        rcases hinv with ⟨hb, _, hall⟩ | ⟨_, _, _, hall, _⟩
        · intro j hj; rw [hb]; exact hall j hj
        · exact hall
      refine ⟨lt_of_le_of_lt hb0 hlt, by omega, rfl, ?_, ?_⟩
      · intro j hj
        rcases Nat.lt_succ_iff_lt_or_eq.1 hj with hj2 | rfl
        · exact le_of_lt (lt_of_le_of_lt (hprev j hj2) hlt)
        · exact le_refl _
      · intro j hj
        exact lt_of_le_of_lt (hprev j hj) hlt
    · rw [if_neg hlt]
      push_neg at hlt
      refine ih (i + 1) b bi (by omega) (by omega) ?_
      rcases hinv with ⟨hb, hbi, hall⟩ | ⟨hb, hbi, hbeq, hall, hstrict⟩
      · refine Or.inl ⟨hb, hbi, ?_⟩
        intro j hj
        rcases Nat.lt_succ_iff_lt_or_eq.1 hj with hj2 | rfl
        · exact hall j hj2
        · rw [← hb]; exact hlt
      · refine Or.inr ⟨hb, by omega, hbeq, ?_, hstrict⟩
        intro j hj
        rcases Nat.lt_succ_iff_lt_or_eq.1 hj with hj2 | rfl
        · exact hall j hj2
        · exact hlt

theorem best_ucb_random {T : Type} (n : TreeSearchNode T) (c : ℝ) (draw : ℕ) :
    best_ucb_score_index n c true draw = draw % n.children.length := by
  simp [best_ucb_score_index]

theorem best_ucb_nonrandom {T : Type} (n : TreeSearchNode T) (c : ℝ) (draw : ℕ) :
    best_ucb_score_index n c false draw = ucbLoop n.children c n.times_visited 0 0 0 := by
  simp [best_ucb_score_index]

theorem best_ucb_lt_length {T : Type} (n : TreeSearchNode T) (c : ℝ) (rs : Bool) (draw : ℕ)
    (h : n.children ≠ []) : best_ucb_score_index n c rs draw < n.children.length := by
  have hlen : 0 < n.children.length := List.length_pos.2 h
  cases rs with
  | true => rw [best_ucb_random]; exact Nat.mod_lt _ hlen
  | false =>
    rw [best_ucb_nonrandom]
    exact ucbLoop_lt_length n.children c n.times_visited (n.children.length - 0) 0 0 0 rfl hlen

theorem best_ucb_characterization {T : Type} (n : TreeSearchNode T) (c : ℝ) (draw : ℕ)
    (h : n.children ≠ []) :
    best_ucb_score_index n c false draw < n.children.length ∧
      ((∀ j < n.children.length, scAt n c j ≤ 0) → best_ucb_score_index n c false draw = 0) ∧
      ((∃ j, j < n.children.length ∧ 0 < scAt n c j) →
        0 < scAt n c (best_ucb_score_index n c false draw) ∧
          (∀ j < n.children.length, scAt n c j ≤ scAt n c (best_ucb_score_index n c false draw)) ∧
          (∀ j < best_ucb_score_index n c false draw,
            scAt n c j < scAt n c (best_ucb_score_index n c false draw))) := by
  have hbound := best_ucb_lt_length n c false draw h
  have hinv := ucbLoop_invariant n c (n.children.length - 0) 0 0 0 rfl (Nat.zero_le _)
    (Or.inl ⟨rfl, rfl, by omega⟩)
  rw [best_ucb_nonrandom]
  rw [best_ucb_nonrandom] at hbound
  refine ⟨hbound, ?_, ?_⟩
  · intro hall
    rcases hinv with ⟨h0, _⟩ | ⟨hpos, _, _⟩
    · exact h0
    · exact absurd hpos (not_lt.2 (hall _ hbound))
  · rintro ⟨j, hj, hjpos⟩
    rcases hinv with ⟨_, hall⟩ | hgood
    · exact absurd hjpos (not_lt.2 (hall j hj))
    · exact hgood

/-! Branch equations for run: the four reachable execution shapes. -/

section EngineLemmas

variable {T : Type} [DecidableEq T]
variable (mutations : List (Mutation T)) (uct_exploration : ℝ)
variable (rollout : ℕ → RollOut T) (tree : Evaluator T)
variable (rollout_epsilon : ℚ) (rollout_depth : ℕ)
variable (move_away_constant : ℚ) (random_search : Bool) (rng : ℕ → ℕ)

theorem run_leaf_unvisited (a : ℚ) (s : T) (prev : Finset T) (k : ℕ) :
    run mutations uct_exploration rollout tree rollout_epsilon rollout_depth
        move_away_constant random_search rng (.mk 0 a s []) prev k =
      ⟨update_average (.mk 0 a s [])
          (rollout k s mutations tree rollout_depth rollout_epsilon prev),
        prev, rollout k s mutations tree rollout_depth rollout_epsilon prev, k + 1⟩ := by
  rw [run]
  simp [expand, simulate]

theorem run_leaf_deadend {t : ℕ} (a : ℚ) (s : T) {prev : Finset T} (k : ℕ)
    (ht : t ≠ 0) (hgc : (get_children_from_mutations s mutations prev).1 = []) :
    run mutations uct_exploration rollout tree rollout_epsilon rollout_depth
        move_away_constant random_search rng (.mk t a s []) prev k =
      ⟨update_average (.mk t a s []) (f64toI32 (a - |a| * move_away_constant)),
        prev, f64toI32 (a - |a| * move_away_constant), k⟩ := by
  rw [run]
  simp [expand, ht, hgc, gc_empty_prev s mutations prev hgc]

theorem run_leaf_expand {t : ℕ} (a : ℚ) (s : T) {prev : Finset T} (k : ℕ)
    {ch : TreeSearchNode T} {rest : List (TreeSearchNode T)}
    (ht : t ≠ 0) (hgc : (get_children_from_mutations s mutations prev).1 = ch :: rest) :
    run mutations uct_exploration rollout tree rollout_epsilon rollout_depth
        move_away_constant random_search rng (.mk t a s []) prev k =
      ⟨update_average (.mk t a s (ch :: rest))
          (rollout k ch.state mutations tree rollout_depth rollout_epsilon
            (get_children_from_mutations s mutations prev).2),
        (get_children_from_mutations s mutations prev).2,
        rollout k ch.state mutations tree rollout_depth rollout_epsilon
          (get_children_from_mutations s mutations prev).2, k + 1⟩ := by
  rw [run]
  simp [expand, ht, hgc, simulate]

theorem run_cons {t : ℕ} (a : ℚ) (s : T) {cs : List (TreeSearchNode T)}
    (prev : Finset T) (k : ℕ) (hne : cs ≠ [])
    (hlt : best_ucb_score_index (.mk t a s cs) uct_exploration random_search (rng k) <
      cs.length) :
    run mutations uct_exploration rollout tree rollout_epsilon rollout_depth
        move_away_constant random_search rng (.mk t a s cs) prev k =
      (let r := run mutations uct_exploration rollout tree rollout_epsilon rollout_depth
        move_away_constant random_search rng
        (cs.get ⟨best_ucb_score_index (.mk t a s cs) uct_exploration random_search (rng k), hlt⟩)
        prev (k + 1)
      ⟨update_average (.mk t a s
          (cs.set (best_ucb_score_index (.mk t a s cs) uct_exploration random_search (rng k))
            r.node)) r.value,
        r.prev, r.value, r.k⟩) := by
  rw [run]
  rw [if_neg (by simpa [List.isEmpty_iff] using hne)]
  rw [dif_pos hlt]

end EngineLemmas

section EngineProofs

variable {T : Type} [DecidableEq T]
variable (mutations : List (Mutation T)) (uct_exploration : ℝ)
variable (rollout : ℕ → RollOut T) (tree : Evaluator T)
variable (rollout_epsilon : ℚ) (rollout_depth : ℕ)
variable (move_away_constant : ℚ) (random_search : Bool) (rng : ℕ → ℕ)

theorem run_prev_mono_sized : ∀ (sz : ℕ) (n : TreeSearchNode T), sizeOf n ≤ sz →
    ∀ (prev : Finset T) (k : ℕ),
      prev ⊆ (run mutations uct_exploration rollout tree rollout_epsilon rollout_depth
        move_away_constant random_search rng n prev k).prev := by
  intro sz
  induction sz with
  | zero =>
    intro n hsz
    obtain ⟨t, a, s, cs⟩ := n
    rw [TreeSearchNode.mk.sizeOf_spec] at hsz
    omega
  | succ sz ih =>
    intro n hsz prev k
    obtain ⟨t, a, s, cs⟩ := n
    by_cases hcs : cs = []
    · subst hcs
      by_cases ht : t = 0
      · subst ht
        rw [run_leaf_unvisited]
      · cases hgc : (get_children_from_mutations s mutations prev).1 with
        | nil =>
          rw [run_leaf_deadend mutations uct_exploration rollout tree rollout_epsilon
            rollout_depth move_away_constant random_search rng a s k ht hgc]
        | cons ch rest =>
          rw [run_leaf_expand mutations uct_exploration rollout tree rollout_epsilon
            rollout_depth move_away_constant random_search rng a s k ht hgc]
          exact gc_prev_mono s mutations prev
    · have hlt := best_ucb_lt_length (.mk t a s cs) uct_exploration random_search (rng k)
        (by simpa using hcs)
      rw [run_cons mutations uct_exploration rollout tree rollout_epsilon rollout_depth
        move_away_constant random_search rng a s prev k hcs hlt]
      dsimp only
      have hmem : cs.get ⟨best_ucb_score_index (.mk t a s cs) uct_exploration random_search
          (rng k), hlt⟩ ∈ cs := by
        rw [List.get_eq_getElem]
        exact List.getElem_mem hlt
      have hsize : sizeOf (cs.get ⟨best_ucb_score_index (.mk t a s cs) uct_exploration
          random_search (rng k), hlt⟩) ≤ sz := by
        have h2 := List.sizeOf_lt_of_mem hmem
        simp [TreeSearchNode.mk.sizeOf_spec] at hsz
        omega
      exact ih _ hsize prev (k + 1)

theorem run_prev_mono (n : TreeSearchNode T) (prev : Finset T) (k : ℕ) :
    prev ⊆ (run mutations uct_exploration rollout tree rollout_epsilon rollout_depth
      move_away_constant random_search rng n prev k).prev :=
  run_prev_mono_sized mutations uct_exploration rollout tree rollout_epsilon rollout_depth
    move_away_constant random_search rng (sizeOf n) n (le_refl _) prev k

end EngineProofs

/-! Structural lemmas about states and subtrees used by the run
invariant. -/

theorem states_def {T : Type} (n : TreeSearchNode T) :
    states n = n.state :: statesList n.children := by
  cases n; simp

theorem statesList_of_childless {T : Type} (l : List (TreeSearchNode T))
    (h : ∀ c ∈ l, c.children = []) : statesList l = l.map TreeSearchNode.state := by
  induction l with
  | nil => simp
  | cons c rest ih =>
    simp only [statesList_cons, List.map_cons]
    rw [states_def, h c (List.mem_cons_self c rest)]
    rw [ih fun d hd => h d (List.mem_cons_of_mem _ hd)]
    simp

theorem mem_subtrees_trans {T : Type} {m c : TreeSearchNode T} {t : ℕ} {a : ℚ} {s : T}
    {cs : List (TreeSearchNode T)} (hc : c ∈ cs) (hm : m ∈ subtrees c) :
    m ∈ subtrees (.mk t a s cs) := by
  rw [subtrees_mk]
  exact List.mem_cons_of_mem _ ((mem_subtreesList_iff cs m).2 ⟨c, hc, hm⟩)

theorem visitInv_of_mem_children {T : Type} {t : ℕ} {a : ℚ} {s : T}
    {cs : List (TreeSearchNode T)} (h : visitInv (.mk t a s cs)) {c : TreeSearchNode T}
    (hc : c ∈ cs) : visitInv c :=
  fun m hm hne => h m (mem_subtrees_trans hc hm) hne

theorem states_child_subset {T : Type} {c : TreeSearchNode T} {cs : List (TreeSearchNode T)}
    (hc : c ∈ cs) : ∀ y ∈ states c, y ∈ statesList cs :=
  fun y hy => (mem_statesList_iff cs y).2 ⟨c, hc, hy⟩

theorem nodup_states_child {T : Type} {cs : List (TreeSearchNode T)}
    (h : (statesList cs).Nodup) {c : TreeSearchNode T} (hc : c ∈ cs) :
    (states c).Nodup := by
  rw [statesList_eq_flatten] at h
  exact (List.nodup_flatten.1 h).1 (states c) (List.mem_map.2 ⟨c, hc, rfl⟩)

theorem mem_flatten_set {α : Type} {L : List (List α)} {i : ℕ} {P : List α} {y : α}
    (hy : y ∈ (L.set i P).flatten) : y ∈ P ∨ y ∈ L.flatten := by
  rcases List.mem_flatten.1 hy with ⟨l, hl, hyl⟩
  rcases List.mem_or_eq_of_mem_set hl with h | rfl
  · exact Or.inr (List.mem_flatten.2 ⟨l, h, hyl⟩)
  · exact Or.inl hyl

theorem nodup_flatten_set {α : Type} {L : List (List α)} {i : ℕ} {P : List α}
    (hi : i < L.length) (hnd : L.flatten.Nodup) (hP : P.Nodup)
    (hfresh : ∀ y ∈ P, y ∈ L.get ⟨i, hi⟩ ∨ y ∉ L.flatten) :
    (L.set i P).flatten.Nodup := by
  rcases List.nodup_flatten.1 hnd with ⟨hparts, hpair⟩
  refine List.nodup_flatten.2 ⟨?_, ?_⟩
  · intro l hl
    rcases List.mem_or_eq_of_mem_set hl with h | rfl
    · exact hparts l h
    · exact hP
  · rw [List.pairwise_iff_getElem] at hpair ⊢
    intro j j2 hj hj2 hjj2
    have hjL : j < L.length := by simpa using hj
    have hj2L : j2 < L.length := by simpa using hj2
    have hgetj := List.getElem_set (l := L) (m := i) (n := j) (a := P) hj
    have hgetj2 := List.getElem_set (l := L) (m := i) (n := j2) (a := P) hj2
    rw [hgetj, hgetj2]
    by_cases hij : i = j
    · subst hij
      rw [if_pos rfl, if_neg (by omega)]
      intro y hyP hyK
      rcases hfresh y hyP with hin | hout
      · have hdisj := hpair i j2 hjL hj2L hjj2
        rw [List.get_eq_getElem] at hin
        exact hdisj hin hyK
      · exact hout (List.mem_flatten.2 ⟨_, List.getElem_mem hj2L, hyK⟩)
    · rw [if_neg hij]
      by_cases hij2 : i = j2
      · subst hij2
        rw [if_pos rfl]
        intro y hyJ hyP
        rcases hfresh y hyP with hin | hout
        · have hdisj := hpair j i hjL (by omega) hjj2
          rw [List.get_eq_getElem] at hin
          exact hdisj hyJ hin
        · exact hout (List.mem_flatten.2 ⟨_, List.getElem_mem hjL, hyJ⟩)
      · rw [if_neg hij2]
        exact hpair j j2 hjL hj2L hjj2

theorem subtrees_eq_of_childless {T : Type} {c : TreeSearchNode T}
    (h : c.children = []) : subtrees c = [c] := by
  obtain ⟨t, a, s, cs⟩ := c
  simp only [TreeSearchNode.children_mk] at h
  subst h
  simp

section EngineInvariant

variable {T : Type} [DecidableEq T]
variable (mutations : List (Mutation T)) (uct_exploration : ℝ)
variable (rollout : ℕ → RollOut T) (tree : Evaluator T)
variable (rollout_epsilon : ℚ) (rollout_depth : ℕ)
variable (move_away_constant : ℚ) (random_search : Bool) (rng : ℕ → ℕ)

theorem run_spec_sized : ∀ (sz : ℕ) (n : TreeSearchNode T), sizeOf n ≤ sz →
    ∀ (prev : Finset T) (k : ℕ),
      (states n).Nodup → (∀ y ∈ states n, y ∈ prev) →
      RunGood n prev (run mutations uct_exploration rollout tree rollout_epsilon
        rollout_depth move_away_constant random_search rng n prev k) := by
  intro sz
  induction sz with
  | zero =>
    intro n hsz
    obtain ⟨t, a, s, cs⟩ := n
    rw [TreeSearchNode.mk.sizeOf_spec] at hsz
    omega
  | succ sz ih =>
    intro n hsz prev k hnd hsub
    obtain ⟨t, a, s, cs⟩ := n
    rw [states_mk] at hnd hsub
    by_cases hcs : cs = []
    · subst hcs
      by_cases ht : t = 0
      · subst ht
        rw [run_leaf_unvisited]
        refine ⟨by simp, ?_, ?_, by simp, by simp, by simp, ?_⟩
        · intro y hy
          simp at hy
          rw [hy]
          exact hsub s (by simp)
        · intro y hy
          simp at hy
          rw [hy]
          exact Or.inl (by simp)
        · intro _ m hm hne
          simp at hm
          exact (hne (by rw [hm]; simp)).elim
      · cases hgc : (get_children_from_mutations s mutations prev).1 with
        | nil =>
          rw [run_leaf_deadend mutations uct_exploration rollout tree rollout_epsilon
            rollout_depth move_away_constant random_search rng a s k ht hgc]
          refine ⟨by simp, ?_, ?_, by simp, by simp, by simp, ?_⟩
          · intro y hy
            simp at hy
            rw [hy]
            exact hsub s (by simp)
          · intro y hy
            simp at hy
            rw [hy]
            exact Or.inl (by simp)
          · intro _ m hm hne
            simp at hm
            exact (hne (by rw [hm]; simp)).elim
        | cons ch rest =>
          rw [run_leaf_expand mutations uct_exploration rollout tree rollout_epsilon
            rollout_depth move_away_constant random_search rng a s k ht hgc]
          have hprops : ∀ c ∈ ch :: rest, c.times_visited = 0 ∧ c.children = [] ∧
              c.state ∉ prev ∧ c.state ∈ (get_children_from_mutations s mutations prev).2 := by
            intro c hc
            exact gc_child_props s mutations prev c (hgc ▸ hc)
          have hchildless : ∀ c ∈ ch :: rest, c.children = [] :=
            fun c hc => (hprops c hc).2.1
          have hstates : statesList (ch :: rest) = (ch :: rest).map TreeSearchNode.state :=
            statesList_of_childless _ hchildless
          refine ⟨?_, ?_, ?_, by simp, by simp, by simp, ?_⟩
          · simp only [states_mk, update_average_mk, TreeSearchNode.children_mk, hstates]
            refine List.nodup_cons.2 ⟨?_, ?_⟩
            · intro hmem
              rcases List.mem_map.1 hmem with ⟨c, hc, hcs2⟩
              have := (hprops c hc).2.2.1
              rw [hcs2] at this
              exact this (hsub s (by simp))
            · have := gc_states_nodup s mutations prev
              rw [hgc] at this
              exact this
          · intro y hy
            simp only [states_mk, update_average_mk, TreeSearchNode.children_mk, hstates]
              at hy
            rcases List.mem_cons.1 hy with hys | hy2
            · rw [hys]
              exact gc_prev_mono s mutations prev (hsub s (by simp))
            · rcases List.mem_map.1 hy2 with ⟨c, hc, hcy⟩
              rw [← hcy]
              exact (hprops c hc).2.2.2
          · intro y hy
            simp only [states_mk, update_average_mk, TreeSearchNode.children_mk, hstates]
              at hy
            rcases List.mem_cons.1 hy with hys | hy2
            · rw [hys]
              exact Or.inl (by simp)
            · rcases List.mem_map.1 hy2 with ⟨c, hc, hcy⟩
              rw [← hcy]
              exact Or.inr (hprops c hc).2.2.1
          · intro _ m hm hne
            simp only [update_average_mk, subtrees_mk] at hm
            rcases List.mem_cons.1 hm with rfl | hm2
            · simp
              omega
            · rcases (mem_subtreesList_iff _ _).1 hm2 with ⟨c, hc, hmc⟩
              rw [subtrees_eq_of_childless (hchildless c hc)] at hmc
              simp at hmc
              rw [hmc] at hne
              exact absurd (hchildless c hc) hne
    · have hlt := best_ucb_lt_length (.mk t a s cs) uct_exploration random_search (rng k)
        (by simpa using hcs)
      rw [run_cons mutations uct_exploration rollout tree rollout_epsilon rollout_depth
        move_away_constant random_search rng a s prev k hcs hlt]
      dsimp only
      obtain ⟨hs_not, htail⟩ := List.nodup_cons.1 hnd
      have hmem : cs.get ⟨best_ucb_score_index (.mk t a s cs) uct_exploration random_search
          (rng k), hlt⟩ ∈ cs := by
        rw [List.get_eq_getElem]
        exact List.getElem_mem hlt
      have hsize : sizeOf (cs.get ⟨best_ucb_score_index (.mk t a s cs) uct_exploration
          random_search (rng k), hlt⟩) ≤ sz := by
        have h2 := List.sizeOf_lt_of_mem hmem
        rw [TreeSearchNode.mk.sizeOf_spec] at hsz
        omega
      have hchild_nd := nodup_states_child htail hmem
      have hchild_sub : ∀ y ∈ states (cs.get ⟨best_ucb_score_index (.mk t a s cs)
          uct_exploration random_search (rng k), hlt⟩), y ∈ prev :=
        fun y hy => hsub y (List.mem_cons_of_mem _ (states_child_subset hmem y hy))
      obtain ⟨B2, C2, D2, E2, F2, V2, G2⟩ := ih _ hsize prev (k + 1) hchild_nd hchild_sub
      have hmono := run_prev_mono mutations uct_exploration rollout tree rollout_epsilon
        rollout_depth move_away_constant random_search rng
        (cs.get ⟨best_ucb_score_index (.mk t a s cs) uct_exploration random_search
          (rng k), hlt⟩) prev (k + 1)
      have hidxmap : best_ucb_score_index (.mk t a s cs) uct_exploration random_search
          (rng k) < (cs.map states).length := by simpa using hlt
      have hLget : (cs.map states).get ⟨_, hidxmap⟩ =
          states (cs.get ⟨best_ucb_score_index (.mk t a s cs) uct_exploration random_search
            (rng k), hlt⟩) := by
        simp
      have hset : statesList (cs.set (best_ucb_score_index (.mk t a s cs) uct_exploration
          random_search (rng k)) (run mutations uct_exploration rollout tree rollout_epsilon
            rollout_depth move_away_constant random_search rng
            (cs.get ⟨best_ucb_score_index (.mk t a s cs) uct_exploration random_search
              (rng k), hlt⟩) prev (k + 1)).node) =
          ((cs.map states).set (best_ucb_score_index (.mk t a s cs) uct_exploration
            random_search (rng k)) (states (run mutations uct_exploration rollout tree
              rollout_epsilon rollout_depth move_away_constant random_search rng
              (cs.get ⟨best_ucb_score_index (.mk t a s cs) uct_exploration random_search
                (rng k), hlt⟩) prev (k + 1)).node)).flatten := by
        rw [statesList_eq_flatten, List.map_set]
      have hflat : statesList cs = (cs.map states).flatten := statesList_eq_flatten cs
      refine ⟨?_, ?_, ?_, by simp, by simp, by simp, ?_⟩
      · simp only [states_mk, update_average_mk, TreeSearchNode.children_mk, hset]
        refine List.nodup_cons.2 ⟨?_, ?_⟩
        · intro hmem2
          rcases mem_flatten_set hmem2 with hin | hold
          · rcases D2 s hin with hin2 | hout
            · exact hs_not (states_child_subset hmem s hin2)
            · exact hout (hsub s (by simp))
          · rw [← hflat] at hold
            exact hs_not hold
        · refine nodup_flatten_set hidxmap (hflat ▸ htail) B2 ?_
          intro y hy
          rcases D2 y hy with hin | hout
          · exact Or.inl (by rw [hLget]; exact hin)
          · refine Or.inr ?_
            rw [← hflat]
            intro hmem3
            exact hout (hsub y (List.mem_cons_of_mem _ hmem3))
      · intro y hy
        simp only [states_mk, update_average_mk, TreeSearchNode.children_mk, hset] at hy
        rcases List.mem_cons.1 hy with hys | hy2
        · rw [hys]
          exact hmono (hsub s (by simp))
        · rcases mem_flatten_set hy2 with hin | hold
          · exact C2 y hin
          · rw [← hflat] at hold
            exact hmono (hsub y (List.mem_cons_of_mem _ hold))
      · intro y hy
        simp only [states_mk, update_average_mk, TreeSearchNode.children_mk, hset] at hy
        rcases List.mem_cons.1 hy with hys | hy2
        · rw [hys]
          exact Or.inl (by simp)
        · rcases mem_flatten_set hy2 with hin | hold
          · rcases D2 y hin with hin2 | hout
            · exact Or.inl (List.mem_cons_of_mem _ (states_child_subset hmem y hin2))
            · exact Or.inr hout
          · rw [← hflat] at hold
            exact Or.inl (List.mem_cons_of_mem _ hold)
      · intro hinv m hm hne
        simp only [update_average_mk, subtrees_mk] at hm
        rcases List.mem_cons.1 hm with rfl | hm2
        · have h2 := hinv (.mk t a s cs) (self_mem_subtrees _) (by simpa using hcs)
          simp at h2 ⊢
          omega
        · rcases (mem_subtreesList_iff _ _).1 hm2 with ⟨c, hc, hmc⟩
          rcases List.mem_or_eq_of_mem_set hc with hcold | rfl
          · exact hinv m (mem_subtrees_trans hcold hmc) hne
          · exact G2 (visitInv_of_mem_children hinv hmem) m hmc hne

end EngineInvariant

@[simp] theorem get_tree_size_mk {T : Type} (t : ℕ) (a : ℚ) (s : T)
    (cs : List (TreeSearchNode T)) : get_tree_size (.mk t a s cs) = 1 + tree_size_loop cs := by
  rw [get_tree_size]

@[simp] theorem tree_size_loop_nil {T : Type} :
    tree_size_loop ([] : List (TreeSearchNode T)) = 0 := by
  rw [tree_size_loop]

@[simp] theorem tree_size_loop_cons {T : Type} (c : TreeSearchNode T)
    (rest : List (TreeSearchNode T)) :
    tree_size_loop (c :: rest) = get_tree_size c + tree_size_loop rest := by
  rw [tree_size_loop]

@[simp] theorem get_max_state_mk {T : Type} (tree : Evaluator T) (t : ℕ) (a : ℚ) (s : T)
    (cs : List (TreeSearchNode T)) :
    get_max_state tree (.mk t a s cs) = get_max_loop tree cs s := by
  rw [get_max_state]

@[simp] theorem get_max_loop_nil {T : Type} (tree : Evaluator T) (best : T) :
    get_max_loop tree [] best = best := by
  rw [get_max_loop]

theorem states_length_sized {T : Type} : ∀ (sz : ℕ) (n : TreeSearchNode T), sizeOf n ≤ sz →
    (states n).length = get_tree_size n := by
  intro sz
  induction sz with
  | zero =>
    intro n hsz
    obtain ⟨t, a, s, cs⟩ := n
    rw [TreeSearchNode.mk.sizeOf_spec] at hsz
    omega
  | succ sz ih =>
    intro n hsz
    obtain ⟨t, a, s, cs⟩ := n
    rw [TreeSearchNode.mk.sizeOf_spec] at hsz
    have hlist : ∀ (l : List (TreeSearchNode T)), (∀ c ∈ l, sizeOf c ≤ sz) →
        (statesList l).length = tree_size_loop l := by
      intro l
      induction l with
      | nil => intro _; simp
      | cons c rest ihl =>
        intro hmem
        simp only [statesList_cons, tree_size_loop_cons, List.length_append]
        rw [ih c (hmem c (List.mem_cons_self c rest)),
          ihl fun d hd => hmem d (List.mem_cons_of_mem _ hd)]
    simp only [states_mk, get_tree_size_mk, List.length_cons]
    rw [hlist cs fun c hc => by have := List.sizeOf_lt_of_mem hc; omega]
    omega

theorem states_length {T : Type} (n : TreeSearchNode T) :
    (states n).length = get_tree_size n :=
  states_length_sized (sizeOf n) n (le_refl _)

theorem foldl_update_average {T : Type} (s : T) (cs : List (TreeSearchNode T)) :
    ∀ (vs : List ℤ) (t : ℕ) (a : ℚ),
      (vs.foldl update_average (.mk t a s cs)).times_visited = t + vs.length ∧
      (vs.foldl update_average (.mk t a s cs)).average_evaluation *
          ((t + vs.length : ℕ) : ℚ) =
        (t : ℚ) * a + (vs.map fun z => (z : ℚ)).sum ∧
      (vs.foldl update_average (.mk t a s cs)).state = s ∧
      (vs.foldl update_average (.mk t a s cs)).children = cs := by
  intro vs
  induction vs with
  | nil => intro t a; exact ⟨by simp, by simp [mul_comm], by simp, by simp⟩
  | cons v rest ihv =>
    intro t a
    simp only [List.foldl_cons, update_average_mk]
    obtain ⟨h1, h2, h3, h4⟩ := ihv (t + 1) (a + ((v : ℚ) - a) / ((t + 1 : ℕ) : ℚ))
    have hlen : t + (v :: rest).length = (t + 1) + rest.length := by
      simp
      omega
    refine ⟨by rw [h1]; omega, ?_, h3, h4⟩
    rw [hlen, h2]
    have hne : ((t + 1 : ℕ) : ℚ) ≠ 0 := by
      exact_mod_cast Nat.succ_ne_zero t
    push_cast
    push_cast at hne
    field_simp
    ring

section EngineFinal

variable {T : Type} [DecidableEq T]
variable (mutations : List (Mutation T)) (uct_exploration : ℝ)
variable (rollout : ℕ → RollOut T) (tree : Evaluator T)
variable (rollout_epsilon : ℚ) (rollout_depth : ℕ)
variable (move_away_constant : ℚ) (random_search : Bool) (rng : ℕ → ℕ)

theorem run_spec (n : TreeSearchNode T) (prev : Finset T) (k : ℕ)
    (hnd : (states n).Nodup) (hsub : ∀ y ∈ states n, y ∈ prev) :
    RunGood n prev (run mutations uct_exploration rollout tree rollout_epsilon rollout_depth
      move_away_constant random_search rng n prev k) :=
  run_spec_sized mutations uct_exploration rollout tree rollout_epsilon rollout_depth
    move_away_constant random_search rng (sizeOf n) n (le_refl _) prev k hnd hsub

theorem run_update_shape (n : TreeSearchNode T) (prev : Finset T) (k : ℕ) :
    (run mutations uct_exploration rollout tree rollout_epsilon rollout_depth
        move_away_constant random_search rng n prev k).node.times_visited =
      n.times_visited + 1 ∧
    (run mutations uct_exploration rollout tree rollout_epsilon rollout_depth
        move_away_constant random_search rng n prev k).node.state = n.state ∧
    (run mutations uct_exploration rollout tree rollout_epsilon rollout_depth
        move_away_constant random_search rng n prev k).node.average_evaluation =
      n.average_evaluation +
        (((run mutations uct_exploration rollout tree rollout_epsilon rollout_depth
            move_away_constant random_search rng n prev k).value : ℚ) -
          n.average_evaluation) / ((n.times_visited + 1 : ℕ) : ℚ) := by
  obtain ⟨t, a, s, cs⟩ := n
  by_cases hcs : cs = []
  · subst hcs
    by_cases ht : t = 0
    · subst ht
      rw [run_leaf_unvisited]
      simp
    · cases hgc : (get_children_from_mutations s mutations prev).1 with
      | nil =>
        rw [run_leaf_deadend mutations uct_exploration rollout tree rollout_epsilon
          rollout_depth move_away_constant random_search rng a s k ht hgc]
        simp
      | cons ch rest =>
        rw [run_leaf_expand mutations uct_exploration rollout tree rollout_epsilon
          rollout_depth move_away_constant random_search rng a s k ht hgc]
        simp
  · have hlt := best_ucb_lt_length (.mk t a s cs) uct_exploration random_search (rng k)
      (by simpa using hcs)
    rw [run_cons mutations uct_exploration rollout tree rollout_epsilon rollout_depth
      move_away_constant random_search rng a s prev k hcs hlt]
    dsimp only
    simp

theorem searchState_zero (start : T) :
    searchState mutations uct_exploration rollout tree rollout_epsilon rollout_depth
        move_away_constant random_search rng start 0 =
      (.mk 0 0 start [], insert start ∅, 0) := by
  rw [searchState]
  rfl

theorem searchState_succ (start : T) (j : ℕ) :
    searchState mutations uct_exploration rollout tree rollout_epsilon rollout_depth
        move_away_constant random_search rng start (j + 1) =
      ((run mutations uct_exploration rollout tree rollout_epsilon rollout_depth
          move_away_constant random_search rng
          (searchState mutations uct_exploration rollout tree rollout_epsilon rollout_depth
            move_away_constant random_search rng start j).1
          (searchState mutations uct_exploration rollout tree rollout_epsilon rollout_depth
            move_away_constant random_search rng start j).2.1
          (searchState mutations uct_exploration rollout tree rollout_epsilon rollout_depth
            move_away_constant random_search rng start j).2.2).node,
        (run mutations uct_exploration rollout tree rollout_epsilon rollout_depth
          move_away_constant random_search rng
          (searchState mutations uct_exploration rollout tree rollout_epsilon rollout_depth
            move_away_constant random_search rng start j).1
          (searchState mutations uct_exploration rollout tree rollout_epsilon rollout_depth
            move_away_constant random_search rng start j).2.1
          (searchState mutations uct_exploration rollout tree rollout_epsilon rollout_depth
            move_away_constant random_search rng start j).2.2).prev,
        (run mutations uct_exploration rollout tree rollout_epsilon rollout_depth
          move_away_constant random_search rng
          (searchState mutations uct_exploration rollout tree rollout_epsilon rollout_depth
            move_away_constant random_search rng start j).1
          (searchState mutations uct_exploration rollout tree rollout_epsilon rollout_depth
            move_away_constant random_search rng start j).2.1
          (searchState mutations uct_exploration rollout tree rollout_epsilon rollout_depth
            move_away_constant random_search rng start j).2.2).k) := by
  rw [searchState]

theorem searchState_invariant (start : T) : ∀ loops : ℕ,
    (states (searchState mutations uct_exploration rollout tree rollout_epsilon rollout_depth
      move_away_constant random_search rng start loops).1).Nodup ∧
    (∀ y ∈ states (searchState mutations uct_exploration rollout tree rollout_epsilon
        rollout_depth move_away_constant random_search rng start loops).1,
      y ∈ (searchState mutations uct_exploration rollout tree rollout_epsilon rollout_depth
        move_away_constant random_search rng start loops).2.1) ∧
    visitInv (searchState mutations uct_exploration rollout tree rollout_epsilon rollout_depth
      move_away_constant random_search rng start loops).1 := by
  intro loops
  induction loops with
  | zero =>
    rw [searchState_zero]
    refine ⟨by simp, ?_, ?_⟩
    · intro y hy
      simp at hy
      rw [hy]
      simp
    · intro m hm hne
      simp at hm
      exact (hne (by rw [hm]; simp)).elim
  | succ j ihj =>
    obtain ⟨nd, sub, inv⟩ := ihj
    have hrg := run_spec mutations uct_exploration rollout tree rollout_epsilon rollout_depth
      move_away_constant random_search rng
      (searchState mutations uct_exploration rollout tree rollout_epsilon rollout_depth
        move_away_constant random_search rng start j).1
      (searchState mutations uct_exploration rollout tree rollout_epsilon rollout_depth
        move_away_constant random_search rng start j).2.1
      (searchState mutations uct_exploration rollout tree rollout_epsilon rollout_depth
        move_away_constant random_search rng start j).2.2 nd sub
    obtain ⟨B2, C2, _, _, _, _, G2⟩ := hrg
    rw [searchState_succ]
    exact ⟨B2, C2, G2 inv⟩

end EngineFinal

section ClaimTheorems

variable {T : Type} [DecidableEq T]
variable (mutations : List (Mutation T)) (uct_exploration : ℝ)
variable (rollout : ℕ → RollOut T) (tree : Evaluator T)
variable (rollout_epsilon : ℚ) (rollout_depth : ℕ)
variable (move_away_constant : ℚ) (random_search : Bool) (rng : ℕ → ℕ)

/-- C1: Global deduplication.  After any number of search loops, the
preorder state list of the tree (one entry per node, as its length equals
the tree size) has no duplicates, every state of the tree is in the
Visited-State Set, node creation inserts the state into the set, and a
child produced by expansion was absent from the set and is in it
afterwards — regardless of which branch first reached that state, since
the set is global to the search. -/
theorem claimC1_global_dedup (start : T) (loops : ℕ) :
    (states (searchState mutations uct_exploration rollout tree rollout_epsilon rollout_depth
      move_away_constant random_search rng start loops).1).Nodup ∧
    (states (searchState mutations uct_exploration rollout tree rollout_epsilon rollout_depth
      move_away_constant random_search rng start loops).1).length =
      get_tree_size (searchState mutations uct_exploration rollout tree rollout_epsilon
        rollout_depth move_away_constant random_search rng start loops).1 ∧
    (∀ y ∈ states (searchState mutations uct_exploration rollout tree rollout_epsilon
        rollout_depth move_away_constant random_search rng start loops).1,
      y ∈ (searchState mutations uct_exploration rollout tree rollout_epsilon rollout_depth
        move_away_constant random_search rng start loops).2.1) ∧
    (∀ (st : T) (prev : Finset T),
      (TreeSearchNode.new st mutations prev).2 = insert st prev) ∧
    (∀ (st : T) (prev : Finset T), ∀ c ∈ (get_children_from_mutations st mutations prev).1,
      c.state ∉ prev ∧ c.state ∈ (get_children_from_mutations st mutations prev).2) := by
  obtain ⟨nd, sub, _⟩ := searchState_invariant mutations uct_exploration rollout tree
    rollout_epsilon rollout_depth move_away_constant random_search rng start loops
  refine ⟨nd, states_length _, sub, fun st prev => rfl, fun st prev c hc => ?_⟩
  obtain ⟨_, _, h3, h4⟩ := gc_child_props st mutations prev c hc
  exact ⟨h3, h4⟩

/-- C4: Dead-end policy value.  A childless, already-visited node whose
expansion finds no unexplored successor backpropagates the penalized
value, the truncation to an integer of
average - abs(average) * move_away_constant: its visit count goes up by
one, its running average absorbs the value, no children are created, the
visited set is unchanged and the recursion goes no deeper (the rng
counter is untouched). -/
theorem claimC4_deadend_value (t : ℕ) (a : ℚ) (s : T) (prev : Finset T) (k : ℕ)
    (ht : t ≠ 0) (hgc : (get_children_from_mutations s mutations prev).1 = []) :
    run mutations uct_exploration rollout tree rollout_epsilon rollout_depth
        move_away_constant random_search rng (.mk t a s []) prev k =
      ⟨.mk (t + 1)
          (a + ((f64toI32 (a - |a| * move_away_constant) : ℚ) - a) / ((t + 1 : ℕ) : ℚ)) s [],
        prev, f64toI32 (a - |a| * move_away_constant), k⟩ := by
  rw [run_leaf_deadend mutations uct_exploration rollout tree rollout_epsilon rollout_depth
    move_away_constant random_search rng a s k ht hgc]
  simp

/-- C5 counterexample: the claim says successive penalized values move
strictly away from zero; but at a dead-end node with average 10 and
move_away_constant one-half, the penalized value is 5 and the updated
average 15/2, both strictly closer to zero than the average 10. -/
theorem claimC5_counterexample :
    (run [fun x => x] 0 (fun _ _ _ _ _ _ _ => 0) (fun _ => 0) 0 0 (1 / 2 : ℚ) false
        (fun _ => 0) (.mk 1 (10 : ℚ) (0 : ℕ) []) {0} 0).value = 5 ∧
    |(5 : ℚ)| < |(10 : ℚ)| ∧
    (run [fun x => x] 0 (fun _ _ _ _ _ _ _ => 0) (fun _ => 0) 0 0 (1 / 2 : ℚ) false
        (fun _ => 0) (.mk 1 (10 : ℚ) (0 : ℕ) []) {0} 0).node.average_evaluation = 15 / 2 ∧
    |(15 / 2 : ℚ)| < |(10 : ℚ)| := by
  have hgc : (get_children_from_mutations (0 : ℕ) [fun x => x] ({0} : Finset ℕ)).1 = [] := by
    rw [gc_cons_mem _ _ _ _ (by simp), gc_nil]
  rw [run_leaf_deadend [fun x => x] 0 (fun _ _ _ _ _ _ _ => 0) (fun _ => 0) 0 0 (1 / 2 : ℚ)
    false (fun _ => 0) (10 : ℚ) (0 : ℕ) 0 (by norm_num) hgc]
  have hv : f64toI32 ((10 : ℚ) - |(10 : ℚ)| * (1 / 2)) = 5 := by
    norm_num [f64toI32, truncQ]
  rw [hv]
  refine ⟨by norm_num, by norm_num, by norm_num, ?_⟩
  rw [abs_of_pos (by norm_num : (0 : ℚ) < 15 / 2), abs_of_pos (by norm_num : (0 : ℚ) < 10)]
  norm_num

/-- C5 (amended): at a dead-end node the penalized value is strictly
below the current average whenever the average is positive (so it moves
toward zero, in the direction opposite the sign, not away from it); when
the average is negative, above the i32 saturation bound, and
abs(average) * move_away_constant is at least one, the penalized value is
again strictly below the average, which there means strictly away from
zero in the same direction as the sign (truncation toward zero blocks
the guarantee for small negative penalties). -/
theorem claimC5_moveaway (t : ℕ) (a : ℚ) (s : T) (prev : Finset T) (k : ℕ)
    (ht : t ≠ 0) (hgc : (get_children_from_mutations s mutations prev).1 = [])
    (hmac : 0 < move_away_constant) :
    (0 < a →
      ((run mutations uct_exploration rollout tree rollout_epsilon rollout_depth
        move_away_constant random_search rng (.mk t a s []) prev k).value : ℚ) < a) ∧
    (a < 0 → 1 ≤ |a| * move_away_constant → -(2 ^ 31 : ℚ) < a →
      ((run mutations uct_exploration rollout tree rollout_epsilon rollout_depth
        move_away_constant random_search rng (.mk t a s []) prev k).value : ℚ) < a ∧
      |a| < |((run mutations uct_exploration rollout tree rollout_epsilon rollout_depth
        move_away_constant random_search rng (.mk t a s []) prev k).value : ℚ)|) := by
  rw [run_leaf_deadend mutations uct_exploration rollout tree rollout_epsilon rollout_depth
    move_away_constant random_search rng a s k ht hgc]
  simp only []
  constructor
  · intro ha
    have hx : a - |a| * move_away_constant < a := by
      have : 0 < |a| * move_away_constant := mul_pos (abs_pos.2 (ne_of_gt ha)) hmac
      linarith
    have hlo : -(2 ^ 31 : ℚ) < a := lt_trans (by norm_num) ha
    exact f64toI32_lt (truncQ_lt_of_lt_pos hx ha) hlo
  · intro ha hone hlo
    have habs : |a| = -a := abs_of_neg ha
    have hx1 : (a - |a| * move_away_constant) + 1 ≤ a := by linarith
    have hxneg : a - |a| * move_away_constant < 0 := by linarith
    have hlt : ((f64toI32 (a - |a| * move_away_constant)) : ℚ) < a :=
      f64toI32_lt (truncQ_lt_of_add_one_le hx1 hxneg) hlo
    refine ⟨hlt, ?_⟩
    have hvneg : ((f64toI32 (a - |a| * move_away_constant)) : ℚ) < 0 := lt_trans hlt ha
    have habs2 : |((f64toI32 (a - |a| * move_away_constant)) : ℚ)| =
        -((f64toI32 (a - |a| * move_away_constant)) : ℚ) := abs_of_neg hvneg
    linarith [habs, habs2]

/-- C6: Backpropagation update.  Every run call returns one integer
value and updates the node it was called on by exactly one visit-count
increment followed by one incremental-mean step with that value; and
folding update_average over any sequence of backpropagated values from a
fresh node leaves times_visited equal to their count and
average_evaluation equal to their arithmetic mean. -/
theorem claimC6_backprop (n : TreeSearchNode T) (prev : Finset T) (k : ℕ) :
    ((run mutations uct_exploration rollout tree rollout_epsilon rollout_depth
        move_away_constant random_search rng n prev k).node.times_visited =
      n.times_visited + 1 ∧
     (run mutations uct_exploration rollout tree rollout_epsilon rollout_depth
        move_away_constant random_search rng n prev k).node.average_evaluation =
      n.average_evaluation +
        (((run mutations uct_exploration rollout tree rollout_epsilon rollout_depth
            move_away_constant random_search rng n prev k).value : ℚ) -
          n.average_evaluation) / ((n.times_visited + 1 : ℕ) : ℚ)) ∧
    (∀ (s : T) (vs : List ℤ),
      (vs.foldl update_average (.mk 0 0 s [])).times_visited = vs.length ∧
      (vs.foldl update_average (.mk 0 0 s [])).average_evaluation =
        ((vs.map fun z => (z : ℚ)).sum) / (vs.length : ℚ)) := by
  obtain ⟨h1, _, h3⟩ := run_update_shape mutations uct_exploration rollout tree
    rollout_epsilon rollout_depth move_away_constant random_search rng n prev k
  refine ⟨⟨h1, h3⟩, fun s vs => ?_⟩
  obtain ⟨g1, g2, _, _⟩ := foldl_update_average s ([] : List (TreeSearchNode T)) vs 0 0
  refine ⟨by simpa using g1, ?_⟩
  rcases Nat.eq_zero_or_pos vs.length with hlen | hlen
  · rw [List.length_eq_zero.1 hlen]
    simp
  · have hne : ((vs.length : ℕ) : ℚ) ≠ 0 := by
      exact_mod_cast Nat.pos_iff_ne_zero.1 hlen
    rw [eq_div_iff hne]
    simpa using g2

/-- C7: Deferred first-visit expansion.  Expansion of a never-visited
node is a no-op returning the node itself with no children materialized;
expansion of a visited childless node materializes exactly the surviving
children (their states a sublist of the successor states in mutation-set
order, each child fresh with zero visits and no children of its own) and
returns the first of them as the node to simulate. -/
theorem claimC7_deferred_expansion :
    (∀ (n : TreeSearchNode T) (prev : Finset T), n.times_visited = 0 →
      expand n mutations prev = ⟨n, n, false, prev⟩) ∧
    (∀ (t : ℕ) (a : ℚ) (s : T) (prev : Finset T) (ch : TreeSearchNode T)
        (rest : List (TreeSearchNode T)), t ≠ 0 →
      (get_children_from_mutations s mutations prev).1 = ch :: rest →
      expand (.mk t a s []) mutations prev =
        ⟨.mk t a s (ch :: rest), ch, false,
          (get_children_from_mutations s mutations prev).2⟩ ∧
      (∀ c ∈ ch :: rest, c.times_visited = 0 ∧ c.children = [])) ∧
    (∀ (s : T) (prev : Finset T),
      (((get_children_from_mutations s mutations prev).1).map TreeSearchNode.state).Sublist
        (mutations.map fun m => m s)) := by
  refine ⟨?_, ?_, fun s prev => gc_states_sublist s mutations prev⟩
  · intro n prev h
    simp [expand, h]
  · intro t a s prev ch rest ht hgc
    constructor
    · simp [expand, ht, hgc]
    · intro c hc
      obtain ⟨h1, h2, _, _⟩ := gc_child_props s mutations prev c (hgc ▸ hc)
      exact ⟨h1, h2⟩

/-- C8: Zero-iteration search.  With loop count zero, search performs no
iteration and returns exactly the start state and a tree size of one. -/
theorem claimC8_zero_loops (start : T) :
    search start rollout tree 0 rollout_depth rollout_epsilon uct_exploration
      move_away_constant random_search mutations rng = (start, 1) := by
  unfold search
  rw [searchState_zero]
  simp

/-- C9: UCB logarithm well-definedness.  In every tree a search can
reach, a node that has children has been visited at least twice, so at
every non-random selection the parent total passed to ucb is at least 2
and the logarithm is evaluated only at arguments of 2 or more, where it
is strictly positive (every child is first selected through its
times_visited = 0 branch before its score is ever computed from the
logarithm). -/
theorem claimC9_ucb_log_welldefined (start : T) (loops : ℕ) :
    ∀ m ∈ subtrees (searchState mutations uct_exploration rollout tree rollout_epsilon
      rollout_depth move_away_constant random_search rng start loops).1,
      m.children ≠ [] →
      2 ≤ m.times_visited ∧ 0 < Real.log (m.times_visited : ℝ) := by
  intro m hm hne
  obtain ⟨_, _, inv⟩ := searchState_invariant mutations uct_exploration rollout tree
    rollout_epsilon rollout_depth move_away_constant random_search rng start loops
  have h2 := inv m hm hne
  refine ⟨h2, Real.log_pos ?_⟩
  exact_mod_cast lt_of_lt_of_le one_lt_two h2

/-- C10: Dead-end persistence.  Once a node dead-ends (childless,
visited, every successor state already visited), it dead-ends forever:
the visited set only ever grows across run calls, the successor states
are recomputed by the same pure mutations and stay inside any larger
set, and a run call on the node with any larger set again takes the
dead-end branch, leaving the children list empty (and a node satisfying
the same three premises with respect to every further-grown set). -/
theorem claimC10_deadend_persistence (t : ℕ) (a : ℚ) (s : T) (prev prev2 : Finset T) (k : ℕ)
    (ht : t ≠ 0) (hgc : (get_children_from_mutations s mutations prev).1 = [])
    (hsub : prev ⊆ prev2) :
    (get_children_from_mutations s mutations prev2).1 = [] ∧
    run mutations uct_exploration rollout tree rollout_epsilon rollout_depth
        move_away_constant random_search rng (.mk t a s []) prev2 k =
      ⟨.mk (t + 1)
          (a + ((f64toI32 (a - |a| * move_away_constant) : ℚ) - a) / ((t + 1 : ℕ) : ℚ)) s [],
        prev2, f64toI32 (a - |a| * move_away_constant), k⟩ ∧
    (t + 1 ≠ 0) ∧
    (∀ (n0 : TreeSearchNode T) (prev0 : Finset T) (k0 : ℕ),
      prev0 ⊆ (run mutations uct_exploration rollout tree rollout_epsilon rollout_depth
        move_away_constant random_search rng n0 prev0 k0).prev) := by
  have hgc2 : (get_children_from_mutations s mutations prev2).1 = [] :=
    (gc_empty_iff s mutations prev2).2 fun m hm =>
      hsub ((gc_empty_iff s mutations prev).1 hgc m hm)
  refine ⟨hgc2, ?_, by omega,
    run_prev_mono mutations uct_exploration rollout tree rollout_epsilon rollout_depth
      move_away_constant random_search rng⟩
  rw [run_leaf_deadend mutations uct_exploration rollout tree rollout_epsilon rollout_depth
    move_away_constant random_search rng a s k ht hgc2]
  simp

end ClaimTheorems

/-! Analytic facts used to evaluate concrete UCB scores. -/

theorem log_three_ge_one : (1 : ℝ) ≤ Real.log 3 := by
  rw [Real.le_log_iff_exp_le (by norm_num : (0 : ℝ) < 3)]
  exact le_trans (le_of_lt Real.exp_one_lt_d9) (by norm_num)

theorem sqrt_log_three_ge_one : (1 : ℝ) ≤ Real.sqrt (Real.log 3) := by
  have h := Real.sqrt_le_sqrt log_three_ge_one
  rwa [Real.sqrt_one] at h

theorem ucb_huge_score_ge (a : ℚ) (ha : 0 ≤ (a : ℝ)) :
    f64MAX ≤ ucb a f64MAX 1 3 := by
  rw [ucb_visited a f64MAX (by norm_num) 3]
  have h1 : ((1 : ℕ) : ℝ) = 1 := by norm_num
  have h3 : ((3 : ℕ) : ℝ) = 3 := by norm_num
  rw [h1, h3, div_one]
  have h4 : f64MAX * 1 ≤ f64MAX * Real.sqrt (Real.log 3) :=
    mul_le_mul_of_nonneg_left sqrt_log_three_ge_one (le_of_lt f64MAX_pos)
  rw [mul_one] at h4
  linarith

theorem ucb_huge_score_pos (a : ℚ) (ha : 0 ≤ (a : ℝ)) : 0 < ucb a f64MAX 1 3 :=
  lt_of_lt_of_le f64MAX_pos (ucb_huge_score_ge a ha)

/-- C2 counterexample: with exploration constant std::f64::MAX, a parent
visited 3 times, child 0 visited once with average 0, child 1 never
visited: the source's selection returns index 0, although the spec's
scoring rule of section 4.2 gives child 1 the score plus-infinity,
strictly greater than child 0's (finite) score — so selection does not
return the index of the child with the strictly greatest UCB score as
the claim words it. -/
theorem claimC2_counterexample :
    best_ucb_score_index (.mk 3 0 (0 : ℕ) [.mk 1 0 1 [], .mk 0 0 2 []]) f64MAX false 0 = 0 ∧
    ucbSpec 0 f64MAX 1 3 < ucbSpec 0 f64MAX 0 3 := by
  have hscore := ucb_huge_score_ge 0 (by norm_num)
  have hpos := ucb_huge_score_pos 0 (by norm_num)
  constructor
  · rw [best_ucb_nonrandom]
    simp only [TreeSearchNode.children_mk, TreeSearchNode.times_visited_mk]
    rw [ucbLoop, dif_pos (by simp :
      (0 : ℕ) < ([TreeSearchNode.mk 1 0 (1 : ℕ) [], .mk 0 0 2 []]).length)]
    dsimp only
    simp only [List.get_eq_getElem, List.getElem_cons_zero,
      TreeSearchNode.average_evaluation_mk, TreeSearchNode.times_visited_mk]
    rw [if_pos hpos]
    rw [ucbLoop, dif_pos (by simp :
      (1 : ℕ) < ([TreeSearchNode.mk 1 0 (1 : ℕ) [], .mk 0 0 2 []]).length)]
    dsimp only
    simp only [List.get_eq_getElem, List.getElem_cons_succ, List.getElem_cons_zero,
      TreeSearchNode.average_evaluation_mk, TreeSearchNode.times_visited_mk, ucb_unvisited]
    rw [if_neg (not_lt.2 hscore)]
    rw [ucbLoop, dif_neg (by simp :
      ¬ (2 : ℕ) < ([TreeSearchNode.mk 1 0 (1 : ℕ) [], .mk 0 0 2 []]).length)]
  · have h2 : ucbSpec (0 : ℚ) f64MAX 0 3 = ⊤ := by simp [ucbSpec]
    rw [h2]
    have h3 : ucbSpec (0 : ℚ) f64MAX 1 3 =
        (((0 : ℚ) + f64MAX * Real.sqrt (Real.log ((3 : ℕ) : ℝ) / ((1 : ℕ) : ℝ)) : ℝ) :
          EReal) := by
      simp [ucbSpec]
    rw [h3]
    exact EReal.coe_lt_top _

/-- C3 counterexample: a parent visited 3 times with a once-visited
child of average 1 at index 0 and a never-visited child at index 1;
with exploration constant std::f64::MAX the visited child's score
exceeds the f64::MAX score of the unvisited child, and non-random
selection returns index 0, the visited child, not a never-visited
one. -/
theorem claimC3_counterexample :
    best_ucb_score_index (.mk 3 0 (10 : ℕ) [.mk 1 1 11 [], .mk 0 0 12 []])
      f64MAX false 0 = 0 ∧
    (TreeSearchNode.mk 1 (1 : ℚ) (11 : ℕ) []).times_visited ≠ 0 ∧
    (TreeSearchNode.mk 0 (0 : ℚ) (12 : ℕ) []).times_visited = 0 := by
  have hscore := ucb_huge_score_ge 1 (by norm_num)
  have hpos := ucb_huge_score_pos 1 (by norm_num)
  refine ⟨?_, by simp, by simp⟩
  rw [best_ucb_nonrandom]
  simp only [TreeSearchNode.children_mk, TreeSearchNode.times_visited_mk]
  rw [ucbLoop, dif_pos (by simp :
    (0 : ℕ) < ([TreeSearchNode.mk 1 1 (11 : ℕ) [], .mk 0 0 12 []]).length)]
  dsimp only
  simp only [List.get_eq_getElem, List.getElem_cons_zero,
    TreeSearchNode.average_evaluation_mk, TreeSearchNode.times_visited_mk]
  rw [if_pos hpos]
  rw [ucbLoop, dif_pos (by simp :
    (1 : ℕ) < ([TreeSearchNode.mk 1 1 (11 : ℕ) [], .mk 0 0 12 []]).length)]
  dsimp only
  simp only [List.get_eq_getElem, List.getElem_cons_succ, List.getElem_cons_zero,
    TreeSearchNode.average_evaluation_mk, TreeSearchNode.times_visited_mk, ucb_unvisited]
  rw [if_neg (not_lt.2 hscore)]
  rw [ucbLoop, dif_neg (by simp :
    ¬ (2 : ℕ) < ([TreeSearchNode.mk 1 1 (11 : ℕ) [], .mk 0 0 12 []]).length)]

/-- C2 (amended): non-random selection implements a strict running
argmax over the source's ucb scores, in which a never-visited child
scores the largest finite f64 (std::f64::MAX), not plus-infinity: the
returned index is within bounds; if every child's score is at most 0
the running best (which starts at score 0, index 0) is never replaced
and index 0 is returned; and if some child scores above 0 the returned
index carries a positive score that no child exceeds and that every
earlier index stays strictly below — so ties go to the earliest
index. -/
theorem claimC2_selection_rule (n : TreeSearchNode T) (c : ℝ) (draw : ℕ)
    (h : n.children ≠ []) :
    best_ucb_score_index n c false draw < n.children.length ∧
    ((∀ j < n.children.length, scAt n c j ≤ 0) → best_ucb_score_index n c false draw = 0) ∧
    ((∃ j, j < n.children.length ∧ 0 < scAt n c j) →
      0 < scAt n c (best_ucb_score_index n c false draw) ∧
      (∀ j < n.children.length, scAt n c j ≤ scAt n c (best_ucb_score_index n c false draw)) ∧
      (∀ j < best_ucb_score_index n c false draw,
        scAt n c j < scAt n c (best_ucb_score_index n c false draw))) :=
  best_ucb_characterization n c draw h

/-- C2 witness: a parent with one once-visited child of average -1 and
exploration constant 0 (parent total 1): the only score is -1, at most
0, and selection returns index 0. -/
theorem claimC2_witness :
    best_ucb_score_index (.mk 1 0 (0 : ℕ) [.mk 1 (-1) 1 []]) 0 false 0 = 0 := by
  refine (claimC2_selection_rule (.mk 1 0 (0 : ℕ) [.mk 1 (-1) 1 []]) 0 0 (by simp)).2.1 ?_
  intro j hj
  simp only [TreeSearchNode.children_mk, List.length_singleton] at hj
  interval_cases j
  unfold scAt
  simp only [TreeSearchNode.children_mk, List.getElem?_cons_zero]
  rw [ucb_visited _ _ (by norm_num) _]
  simp

/-- C3 (amended): unvisited-first selection holds provided every visited
child scores strictly below std::f64::MAX (true for all realistic
parameters; the counterexample shows it can fail at extreme exploration
constants): if at least one child is never visited, non-random selection
returns an in-bounds index of a never-visited child, and every child at
an earlier index has been visited — among several never-visited children
the earliest index wins. -/
theorem claimC3_unvisited_first (n : TreeSearchNode T) (c : ℝ) (draw : ℕ)
    (h : n.children ≠ [])
    (hvis : ∀ (j : ℕ) (hj : j < n.children.length),
      (n.children.get ⟨j, hj⟩).times_visited ≠ 0 → scAt n c j < f64MAX)
    (hunv : ∃ (j : ℕ) (hj : j < n.children.length),
      (n.children.get ⟨j, hj⟩).times_visited = 0) :
    best_ucb_score_index n c false draw < n.children.length ∧
    (∀ (hb : best_ucb_score_index n c false draw < n.children.length),
      (n.children.get ⟨best_ucb_score_index n c false draw, hb⟩).times_visited = 0) ∧
    (∀ (j : ℕ) (hj : j < n.children.length), j < best_ucb_score_index n c false draw →
      (n.children.get ⟨j, hj⟩).times_visited ≠ 0) := by
  obtain ⟨hbound, _, hmax⟩ := best_ucb_characterization n c draw h
  obtain ⟨j0, hj0, hj0t⟩ := hunv
  have hsc0 : scAt n c j0 = f64MAX := by
    rw [scAt_eq n c hj0, hj0t, ucb_unvisited]
  obtain ⟨hipos, hile, hstrict⟩ := hmax ⟨j0, hj0, by rw [hsc0]; exact f64MAX_pos⟩
  have hiunv : (n.children.get ⟨best_ucb_score_index n c false draw, hbound⟩).times_visited
      = 0 := by
    by_contra hne
    have h1 := hvis _ hbound hne
    have h2 := hile j0 hj0
    rw [hsc0] at h2
    exact absurd (lt_of_le_of_lt h2 h1) (lt_irrefl _)
  refine ⟨hbound, fun hb => hiunv, ?_⟩
  intro j hj hjlt htj
  have h1 := hstrict j hjlt
  rw [scAt_eq n c hj, htj, ucb_unvisited] at h1
  have h2 : scAt n c (best_ucb_score_index n c false draw) = f64MAX := by
    rw [scAt_eq n c hbound, hiunv, ucb_unvisited]
  rw [h2] at h1
  exact absurd h1 (lt_irrefl _)

/-- C3 witness: parent visited twice, child 0 visited once with average
0, child 1 never visited, exploration constant 0: selection returns
index 1, the never-visited child. -/
theorem claimC3_witness :
    best_ucb_score_index (.mk 2 0 (0 : ℕ) [.mk 1 0 1 [], .mk 0 0 2 []]) 0 false 0 = 1 := by
  have hres := claimC3_unvisited_first (.mk 2 0 (0 : ℕ) [.mk 1 0 1 [], .mk 0 0 2 []]) 0 0
    (by simp)
    (by
      intro j hj htj
      have hj2 : j < 2 := by simpa using hj
      interval_cases j
      · unfold scAt
        simp only [TreeSearchNode.children_mk, List.getElem?_cons_zero]
        rw [ucb_visited _ _ (by norm_num) _]
        simpa using f64MAX_pos
      · simp at htj)
    ⟨1, by simp, by simp⟩
  obtain ⟨hb, hunv2, _⟩ := hres
  have hzero := hunv2 hb
  have hb2 : best_ucb_score_index (.mk 2 0 (0 : ℕ) [.mk 1 0 1 [], .mk 0 0 2 []]) 0 false 0
      < 2 := by simpa using hb
  have h0 : best_ucb_score_index (.mk 2 0 (0 : ℕ) [.mk 1 0 1 [], .mk 0 0 2 []]) 0 false 0
      ≠ 0 := by
    intro h0
    rw [List.get_eq_getElem] at hzero
    simp only [TreeSearchNode.children_mk, h0, List.getElem_cons_zero,
      TreeSearchNode.times_visited_mk] at hzero
    exact one_ne_zero hzero
  omega

/-- C4 witness: a dead-end node with average 9 and move-away constant
one-third backpropagates the truncated penalty 6 and ends with average
15/2, one more visit, no children, same visited set. -/
theorem claimC4_witness :
    (1 : ℕ) ≠ 0 ∧
    (get_children_from_mutations (0 : ℕ) [fun x => x] ({0} : Finset ℕ)).1 = [] ∧
    run [fun x => x] 0 (fun _ _ _ _ _ _ _ => 0) (fun _ => 0) 0 0 (1 / 3 : ℚ) false
        (fun _ => 0) (.mk 1 (9 : ℚ) (0 : ℕ) []) {0} 0 =
      ⟨.mk 2 (15 / 2 : ℚ) 0 [], {0}, 6, 0⟩ := by
  have hgc : (get_children_from_mutations (0 : ℕ) [fun x => x] ({0} : Finset ℕ)).1 = [] := by
    rw [gc_cons_mem _ _ _ _ (by simp), gc_nil]
  refine ⟨by norm_num, hgc, ?_⟩
  rw [claimC4_deadend_value [fun x => x] 0 (fun _ _ _ _ _ _ _ => 0) (fun _ => 0) 0 0
    (1 / 3 : ℚ) false (fun _ => 0) 1 9 0 {0} 0 (by norm_num) hgc]
  have hv : f64toI32 ((9 : ℚ) - |(9 : ℚ)| * (1 / 3)) = 6 := by
    norm_num [f64toI32, truncQ]
  rw [hv]
  norm_num

/-- C5 witness: a dead-end node with average -4 and move-away constant
one-half backpropagates a value strictly below -4, of magnitude
strictly above 4. -/
theorem claimC5_witness :
    ((run [fun x => x] 0 (fun _ _ _ _ _ _ _ => 0) (fun _ => 0) 0 0 (1 / 2 : ℚ) false
        (fun _ => 0) (.mk 1 (-4 : ℚ) (0 : ℕ) []) {0} 0).value : ℚ) < -4 ∧
    |(-4 : ℚ)| < |((run [fun x => x] 0 (fun _ _ _ _ _ _ _ => 0) (fun _ => 0) 0 0 (1 / 2 : ℚ)
        false (fun _ => 0) (.mk 1 (-4 : ℚ) (0 : ℕ) []) {0} 0).value : ℚ)| := by
  have hgc : (get_children_from_mutations (0 : ℕ) [fun x => x] ({0} : Finset ℕ)).1 = [] := by
    rw [gc_cons_mem _ _ _ _ (by simp), gc_nil]
  have habs4 : |(-4 : ℚ)| = 4 := by norm_num
  exact (claimC5_moveaway [fun x => x] 0 (fun _ _ _ _ _ _ _ => 0) (fun _ => 0) 0 0
    (1 / 2 : ℚ) false (fun _ => 0) 1 (-4) 0 {0} 0 (by norm_num) hgc (by norm_num)).2
    (by norm_num) (by rw [habs4]; norm_num) (by norm_num)

/-- C10 witness: a node that dead-ends at visited set containing 0 also
dead-ends at the strictly larger set containing 0 and 5, leaving its
children empty; and the visited set never shrinks across a run call. -/
theorem claimC10_witness :
    (get_children_from_mutations (0 : ℕ) [fun x => x] ({0, 5} : Finset ℕ)).1 = [] ∧
    run [fun x => x] 0 (fun _ _ _ _ _ _ _ => 0) (fun _ => 0) 0 0 (1 / 2 : ℚ) false
        (fun _ => 0) (.mk 1 (0 : ℚ) (0 : ℕ) []) {0, 5} 0 =
      ⟨.mk 2 0 0 [], {0, 5}, 0, 0⟩ ∧
    ({0} : Finset ℕ) ⊆ (run [fun x => x] 0 (fun _ _ _ _ _ _ _ => 0) (fun _ => 0) 0 0
      (1 / 2 : ℚ) false (fun _ => 0) (.mk 3 (0 : ℚ) (7 : ℕ) []) {0} 4).prev := by
  have hgc : (get_children_from_mutations (0 : ℕ) [fun x => x] ({0} : Finset ℕ)).1 = [] := by
    rw [gc_cons_mem _ _ _ _ (by simp), gc_nil]
  obtain ⟨h1, h2, _, h4⟩ := claimC10_deadend_persistence [fun x => x] 0
    (fun _ _ _ _ _ _ _ => 0) (fun _ => 0) 0 0 (1 / 2 : ℚ) false (fun _ => 0)
    1 0 0 {0} {0, 5} 0 (by norm_num) hgc
    (by intro x hx; simp at hx; simp [hx])
  refine ⟨h1, ?_, h4 _ _ _⟩
  rw [h2]
  have hv : f64toI32 ((0 : ℚ) - |(0 : ℚ)| * (1 / 2)) = 0 := by
    norm_num [f64toI32, truncQ]
  rw [hv]
  norm_num

/-- C9 witness: after two loops of a concrete search the root has one
child and its visit count is exactly 2, as the invariant demands. -/
theorem claimC9_witness :
    2 ≤ (searchState [fun x => x + 1] 0 (fun _ _ _ _ _ _ _ => 0) (fun _ => 0) 0 0 0 false
      (fun _ => 0) (0 : ℕ) 2).1.times_visited := by
  have h0 : searchState [fun x => x + 1] 0 (fun _ _ _ _ _ _ _ => 0) (fun _ => 0) 0 0 0 false
      (fun _ => 0) (0 : ℕ) 0 = (.mk 0 0 0 [], insert 0 ∅, 0) :=
    searchState_zero [fun x => x + 1] 0 (fun _ _ _ _ _ _ _ => 0) (fun _ => 0) 0 0 0 false
      (fun _ => 0) 0
  have h1 : searchState [fun x => x + 1] 0 (fun _ _ _ _ _ _ _ => 0) (fun _ => 0) 0 0 0 false
      (fun _ => 0) (0 : ℕ) 1 = (.mk 1 0 0 [], insert 0 ∅, 1) := by
    rw [searchState_succ, h0]
    dsimp only
    rw [run_leaf_unvisited]
    norm_num
  have hgc1 : get_children_from_mutations (0 : ℕ) [fun x => x + 1] (insert 0 ∅) =
      ([.mk 0 0 1 []], insert 1 (insert 0 ∅)) := by
    rw [gc_cons_not_mem _ _ _ _ (by simp), gc_nil]
  have hgc1a : (get_children_from_mutations (0 : ℕ) [fun x => x + 1] (insert 0 ∅)).1 =
      [TreeSearchNode.mk 0 0 1 []] := by rw [hgc1]
  have h2 : searchState [fun x => x + 1] 0 (fun _ _ _ _ _ _ _ => 0) (fun _ => 0) 0 0 0 false
      (fun _ => 0) (0 : ℕ) 2 =
      (.mk 2 0 0 [.mk 0 0 1 []], insert 1 (insert 0 ∅), 2) := by
    rw [searchState_succ, h1]
    dsimp only
    rw [run_leaf_expand [fun x => x + 1] 0 (fun _ _ _ _ _ _ _ => 0) (fun _ => 0) 0 0 0 false
      (fun _ => 0) 0 0 1 (by norm_num) hgc1a]
    rw [hgc1]
    norm_num
  have hm := claimC9_ucb_log_welldefined [fun x => x + 1] 0 (fun _ _ _ _ _ _ _ => 0)
    (fun _ => 0) 0 0 0 false (fun _ => 0) 0 2
    (searchState [fun x => x + 1] 0 (fun _ _ _ _ _ _ _ => 0) (fun _ => 0) 0 0 0 false
      (fun _ => 0) (0 : ℕ) 2).1
    (self_mem_subtrees _) (by rw [h2]; simp)
  exact hm.1
